import Mathlib

/-!
Verification of the `haymaker` Maya pipeline toolkit.

Python strings are modelled as lists of characters (`Str`), Python dicts as
association lists with unique keys, and fallible code returns `Option` or
`Except`.  Each definition is a direct translation of the function of the same
name in the repository; the theorems at the end of the file settle the frozen
claims about the code.
-/

/-- A Python string, modelled as its list of characters. -/
abbrev Str := List Char

/-- First-match lookup in an association list; models Python `dict` indexing
(dict keys are unique, so the first match is the only match). -/
def lookupK (k : Str) : List (Str × α) → Option α
  | [] => none
  | (k₁, v) :: rest => if k₁ = k then some v else lookupK k rest

namespace AppExe

/-- Data object for a finished subprocess (`app_exe.ProcessResult`). -/
structure ProcessResult where
  name : Str
  cmd : Str
  args : List Str
  result : Str
  errors : Str
deriving DecidableEq

/-- The fields of `app_exe.Process` that the claims are about. -/
structure Process where
  name : Str
  exe : Str
  args : List Str
  /-- whether an `on_finish` callback was supplied at construction
  (`self.on_finish is not None`). -/
  on_finish : Bool
  is_finished : Bool
  results : Option (Str × Str)
deriving DecidableEq

/-- `Process._get_result`: captures the subprocess stdout and stderr, storing
them in `self.results`.  Python `errors if errors else` the empty string
normalises a falsy (empty) stderr to the empty string. -/
def Process.get_result (p : Process) (stdout stderr : Str) :
    Process × (Str × Str) :=
  let errors := if stderr ≠ [] then stderr else []
  ({ p with results := some (stdout, errors) }, (stdout, errors))

/-- `Process.finish`: sets `is_finished`, reads the captured output and returns
the updated process together with the list of `on_finish` invocations
performed (each list element is the `ProcessResult` passed to the callback). -/
def Process.finish (p : Process) (stdout stderr : Str) :
    Process × List ProcessResult :=
  let p₁ := { p with is_finished := true }
  let pr := p₁.get_result stdout stderr
  if p.on_finish then
    (pr.1, [⟨p.name, p.exe, p.args, pr.2.1, pr.2.2⟩])
  else
    (pr.1, [])

/-- A file system: paths mapped to file contents. -/
abbrev Fs := List (Str × Str)

/-- `os.remove`: drop the entry at `path`. -/
def fsRemove (path : Str) : Fs → Fs
  | [] => []
  | e :: rest => if e.1 = path then fsRemove path rest else e :: fsRemove path rest

/-- `maya.MayaProcess`: a `Process` plus the path of the side-channel error
file written by the mayabatch wrapper script. -/
structure MayaProcess extends Process where
  path_errors : Str

/-- `MayaProcess._get_result`: takes the captured stdout/stderr of the base
class, appends the whole contents of the side-channel error file to the
errors, and deletes that file.  `none` models the `FileNotFoundError` raised
by `open` when the error file does not exist. -/
def MayaProcess.get_result (mp : MayaProcess) (stdout stderr : Str) (fs : Fs) :
    Option ((Str × Str) × Fs) :=
  let re := (mp.toProcess.get_result stdout stderr).2
  match lookupK mp.path_errors fs with
  | none => none
  | some contents => some ((re.1, re.2 ++ contents), fsRemove mp.path_errors fs)

/-- The process manager as a transition system.  The state is the list of
running flags of the processes created so far (class attribute
`AppExecuter.PROCESSES`).  `runStarted`/`runFailed` model
`AppExecuter.run` → `_create_process` + `Process.run` (a failed start is
killed immediately), and `procFinish` models a subprocess finishing. -/
inductive AppStep : List Bool → List Bool → Prop
  | runStarted (s : List Bool) : AppStep s (s ++ [true])
  | runFailed (s : List Bool) : AppStep s (s ++ [false])
  | procFinish (s₁ s₂ : List Bool) (b : Bool) :
      AppStep (s₁ ++ b :: s₂) (s₁ ++ false :: s₂)

/-- States reachable from the initial empty process list. -/
inductive AppReachable : List Bool → Prop
  | init : AppReachable []
  | step {s t : List Bool} : AppReachable s → AppStep s t → AppReachable t

/-- Number of currently running managed subprocesses. -/
def runningCount (s : List Bool) : Nat := s.count true

end AppExe

namespace Publisher

/-- Loop body of `publisher.split_into_batches` (the `while batches_left`
loop): `b + 1` is `batches_left`, `i` is the read cursor, and each step yields
the slice `items[i:i+batch_size]`.  Python's
`(batches_left * small_batch) >= len(items) - i` picks the small batch. -/
def batchesGo (items : List α) (small big : Nat) : Nat → Nat → List (List α)
  | 0, _ => []
  | b + 1, i =>
    let batch_size := if items.length - i ≤ (b + 1) * small then small else big
    ((items.drop i).take batch_size) :: batchesGo items small big b (i + batch_size)

/-- `publisher.split_into_batches`, as the list of batches the generator
yields.  Python computes `batch_size = len(items) / max_batches` with float
division and applies `math.ceil` / `int` to it; for lengths below 2^53 the
results agree with the exact integer floor and ceiling divisions used here. -/
def split_into_batches (items : List α) (max_batches : Nat) : List (List α) :=
  if items.length ≤ max_batches then
    items.map (fun item => [item])
  else
    let small_batch := items.length / max_batches
    let big_batch := (items.length + max_batches - 1) / max_batches
    batchesGo items small_batch big_batch max_batches 0

end Publisher

namespace FormulaManager

/-- A Python value passed as a keyword argument to `FormulaRepo.eval`: either
a plain string or a `ReservedVariable` enum member (of which only the `value`
payload is ever read). -/
inductive PyVal where
  | str (s : Str)
  | enum (value : Str)
deriving DecidableEq

/-- The kwargs dict of an `eval` call. -/
abbrev Kwargs := List (Str × PyVal)

/-- The exceptions evaluation can raise.  `formulaNotFound`,
`formulaArgument` and `formulaEvaluation` are the `FormulaException`
subclasses raised by the module; `py` stands for a Python-level
`TypeError`/`AttributeError` (e.g. `.value` on a plain string, or iterating
an enum member); `fuel` marks exhaustion of the modelled recursion depth
(Python: `RecursionError`). -/
inductive Err where
  | formulaNotFound
  | formulaArgument
  | formulaEvaluation
  | py
  | fuel
deriving DecidableEq

/-- Attribute access `x.value`: an enum member yields its payload, a plain
string raises `AttributeError`. -/
def PyVal.value : PyVal → Except Err Str
  | .str _ => .error .py
  | .enum v => .ok v

/-- A `ReservedVariable` enum class: its `DEFAULT` member's value (the
keyword's name) and the remaining members in definition order, as
(name, value) pairs. -/
structure ReservedVariable where
  DEFAULT : Str
  members : List (Str × Str)

/-- `ReservedVariable.get_default`: the first member after `DEFAULT` (both
concrete classes have at least one, so the empty-class fallback is inert). -/
def ReservedVariable.get_default (cls : ReservedVariable) : Str :=
  ((cls.members.head?).map (fun m => m.2)).getD []

/-- The member loop of `ReservedVariable.try_to_resolve`: compare each
member's lowercased name with the token; on a hit, a kwarg stored under the
class's `DEFAULT` name overrides the member's value. -/
def tryMembers (DEFAULT : Str) (kwargs : Kwargs) (value : Str) :
    List (Str × Str) → Except Err (Option Str)
  | [] => .ok none
  | (name, v) :: rest =>
    if name.map Char.toLower = value then
      match lookupK DEFAULT kwargs with
      | some pv => pv.value.map (fun s => some s)
      | none => .ok (some v)
    else tryMembers DEFAULT kwargs value rest

/-- `ReservedVariable.try_to_resolve`. -/
def ReservedVariable.try_to_resolve (cls : ReservedVariable) (value : Str)
    (kwargs : Kwargs) : Except Err (Option Str) :=
  if cls.DEFAULT = value then
    match lookupK cls.DEFAULT kwargs with
    | some pv => pv.value.map (fun s => some s)
    | none => .ok (some cls.get_default)
  else tryMembers cls.DEFAULT kwargs value cls.members

/-- The `Drive` reserved variable class. -/
def Drive : ReservedVariable :=
  ⟨"drive".toList, [("BOX".toList, "~/Box/Capstone_Uploads".toList)]⟩

/-- The `Disk` reserved variable class. -/
def Disk : ReservedVariable :=
  ⟨"disk".toList,
   [("CONFIG".toList, "|drive|/13_Tech/config".toList),
    ("CODE".toList, "|drive|/13_Tech/haymaker".toList)]⟩

/-- `FormulaRepo.RESERVED_KEYWORDS`, in source order. -/
def RESERVED_KEYWORDS : List ReservedVariable := [Drive, Disk]

/-- The walrus loop over reserved keywords in `FormulaRepo._resolve_variable`:
`if value := keyword.try_to_resolve(...)` — a `None` result *or a falsy
(empty) string* falls through to the next keyword. -/
def tryKeywords (kwargs : Kwargs) (var : Str) :
    List ReservedVariable → Except Err (Option Str)
  | [] => .ok none
  | cls :: rest =>
    match cls.try_to_resolve var kwargs with
    | .error e => .error e
    | .ok (some v) =>
        if v ≠ [] then .ok (some v) else tryKeywords kwargs var rest
    | .ok none => tryKeywords kwargs var rest

/-- `formula_manager.FormulaRepo`: the named formulas and the configured
formula-name prefixes. -/
structure FormulaRepo where
  formulas : List (Str × Str)
  formula_prefixes : List Str

/-- Loop of `FormulaRepo._remove_prefix`: the first matching prefix is
stripped together with one further (separator) character. -/
def removePreGo (s : Str) : List Str → Str
  | [] => s
  | p :: rest => if p.isPrefixOf s then s.drop (p.length + 1) else removePreGo s rest

/-- `FormulaRepo._remove_prefix`. -/
def FormulaRepo.remove_pre (repo : FormulaRepo) (s : Str) : Str :=
  removePreGo s repo.formula_prefixes

/-- `FormulaRepo.get_formula`: prefix-strip the name, then a safe dict
lookup. -/
def FormulaRepo.get_formula (repo : FormulaRepo) (formula_name : Str) :
    Option Str :=
  lookupK (repo.remove_pre formula_name) repo.formulas

/-- `FormulaRepo._resolve_variable`.  `evalRec` is the recursive
`self._eval` call used for the formula branch; the keyword branch wraps the
resolved string, the kwarg branch returns the raw Python value (which may be
an enum member), and `if formula := self.get_formula(...)` treats an empty
formula body as falsy. -/
def resolveVar (repo : FormulaRepo) (kwargs : Kwargs)
    (evalRec : PyVal → Except Err Str) (var : Str) : Except Err PyVal :=
  match tryKeywords kwargs var RESERVED_KEYWORDS with
  | .error e => .error e
  | .ok (some v) => .ok (.str v)
  | .ok none =>
    match lookupK var kwargs with
    | some pv => .ok pv
    | none =>
      match repo.get_formula var with
      | some f =>
        if f ≠ [] then
          match evalRec (.str f) with
          | .error e => .error e
          | .ok r => .ok (.str r)
        else .error .formulaArgument
      | none => .error .formulaArgument

/-- The character loop of `FormulaRepo._eval`: `var` is the variable-name
accumulator (`None` outside a `|…|` token), `resolved` the output built so
far.  Each completed token is resolved and the resolved value re-evaluated
(`resolved += self._eval(resolved_variable, **kwargs)`); a dangling `|`
raises `FormulaEvaluationError`. -/
def evalGo (resolveV : Str → Except Err PyVal)
    (evalRec : PyVal → Except Err Str) :
    Str → Option Str → Str → Except Err Str
  | [], none, resolved => .ok resolved
  | [], some _, _ => .error .formulaEvaluation
  | c :: cs, var, resolved =>
    if c = '|' then
      match var with
      | none => evalGo resolveV evalRec cs (some []) resolved
      | some v =>
        match resolveV v with
        | .error e => .error e
        | .ok rv =>
          match evalRec rv with
          | .error e => .error e
          | .ok r => evalGo resolveV evalRec cs none (resolved ++ r)
    else
      match var with
      | none => evalGo resolveV evalRec cs none (resolved ++ [c])
      | some v => evalGo resolveV evalRec cs (some (v ++ [c])) resolved

/-- `FormulaRepo._eval`, fuelled: each nested `_eval` call spends one unit of
the recursion depth Python allows.  Iterating a non-string (an enum member
returned raw from the kwarg branch) raises `TypeError`, modelled by `.py`. -/
def evalF (repo : FormulaRepo) (kwargs : Kwargs) :
    Nat → PyVal → Except Err Str
  | 0, _ => .error .fuel
  | _ + 1, .enum _ => .error .py
  | n + 1, .str s =>
    evalGo (resolveVar repo kwargs (evalF repo kwargs n))
      (evalF repo kwargs n) s none []

/-- `FormulaRepo.eval`: find the (prefix-stripped) formula, raising
`FormulaNotFoundError` on a missing key, then evaluate it. -/
def FormulaRepo.eval (repo : FormulaRepo) (formula_name : Str)
    (kwargs : Kwargs) (fuel : Nat) : Except Err Str :=
  match lookupK (repo.remove_pre formula_name) repo.formulas with
  | none => .error .formulaNotFound
  | some formula => evalF repo kwargs fuel (.str formula)

/-- The variable tokens of a formula string, in order; `none` when a `|` is
left unclosed (mirrors the tokenisation performed by the `_eval` loop). -/
def tokensGo : Str → Option Str → Option (List Str)
  | [], none => some []
  | [], some _ => none
  | c :: cs, var =>
    if c = '|' then
      match var with
      | none => tokensGo cs (some [])
      | some v => (tokensGo cs none).map (fun vs => v :: vs)
    else
      match var with
      | none => tokensGo cs none
      | some v => tokensGo cs (some (v ++ [c]))

/-- The tokens of a whole formula string. -/
def tokensOf (s : Str) : Option (List Str) := tokensGo s none

/-- The string a variable token resolves to, read off statically from
`_resolve_variable`'s branch structure: the (possibly kwarg-overridden)
reserved-keyword value, the kwarg string, or the referenced formula's body —
`none` when resolution would raise or would hand a non-string to `_eval`. -/
def resolveTarget (repo : FormulaRepo) (kwargs : Kwargs) (var : Str) :
    Option Str :=
  match tryKeywords kwargs var RESERVED_KEYWORDS with
  | .error _ => none
  | .ok (some v) => some v
  | .ok none =>
    match lookupK var kwargs with
    | some (.str s) => some s
    | some (.enum _) => none
    | none =>
      match repo.get_formula var with
      | some f => if f ≠ [] then some f else none
      | none => none

/-- `s` contains no `|` character. -/
def noBar (s : Str) : Prop := '|' ∉ s

/-- A two-formula repo used to witness the evaluation claims:
`a = "x|b|y"` references `b = "z"`. -/
def wrepo : FormulaRepo :=
  ⟨[("a".toList, "x|b|y".toList), ("b".toList, "z".toList)], []⟩

/-- A self-referential repo: formula `a` has body `|a|`. -/
def cycRepo : FormulaRepo := ⟨[("a".toList, "|a|".toList)], []⟩

end FormulaManager

namespace Utils

/-- Python `path.split` on a single dot (`str.split('.')`): never empty, the
empty string splits to `[""]`. -/
def splitDot : Str → List Str
  | [] => [[]]
  | c :: cs =>
    if c = '.' then [] :: splitDot cs
    else
      match splitDot cs with
      | p :: ps => (c :: p) :: ps
      | [] => [[c]]

/-- Python `'.'.join`. -/
def joinDot : List Str → Str
  | [] => []
  | [s] => s
  | s :: s₂ :: rest => s ++ '.' :: joinDot (s₂ :: rest)

/-- numeric value of an ASCII digit character. -/
def digitVal (c : Char) : Nat := c.toNat - 48

/-- `int(s)` on an unsigned ASCII decimal digit string; `none` models the
`ValueError` on anything else. -/
def parseDigits (s : Str) : Option Nat :=
  if s ≠ [] ∧ s.all (fun c => c.isDigit) then
    some (s.foldl (fun a c => a * 10 + digitVal c) 0)
  else none

/-- Python `int(s)`: optional sign followed by ASCII decimal digits;
any other shape raises `ValueError` (`none`). -/
def pyInt (s : Str) : Option Int :=
  match s with
  | [] => none
  | c :: cs =>
    if c = '-' then (parseDigits cs).map (fun k => -(k : Int))
    else if c = '+' then (parseDigits cs).map (fun k => (k : Int))
    else (parseDigits (c :: cs)).map (fun k => (k : Int))

/-- Decimal digit emission, most significant first; the fuel argument only
bounds the digit count (`n + 1` always suffices). -/
def natDigitsGo : Nat → Nat → Str → Str
  | 0, _, acc => acc
  | fuel + 1, n, acc =>
    if n < 10 then Char.ofNat (48 + n) :: acc
    else natDigitsGo fuel (n / 10) (Char.ofNat (48 + n % 10) :: acc)

/-- The decimal digits of a natural number, most significant first. -/
def natDigits (n : Nat) : Str := natDigitsGo (n + 1) n []

/-- Left-pad with `c` to width `w` (Python format padding). -/
def leftPad (c : Char) (w : Nat) (s : Str) : Str :=
  List.replicate (w - s.length) c ++ s

/-- Python `f-string` formatting with format spec `04`: zero-pad to total
width 4, the sign counted in the width. -/
def formatPy04 (n : Int) : Str :=
  if n < 0 then '-' :: leftPad '0' 3 (natDigits n.natAbs)
  else leftPad '0' 4 (natDigits n.toNat)

/-- `utils.increment_version_path`: split on dots; fewer than two segments is
an error (`None`); with more than two segments, parse the second-to-last as
the version (dropping that segment), falling back to dropping a literal
`active` segment; insert the bumped version, `04`-formatted, before the last
segment and re-join. -/
def increment_version_path (path : Str) (delta : Int) : Option Str :=
  let ps := splitDot path
  if ps.length ≤ 1 then none
  else
    let vp :=
      if 2 < ps.length then
        match pyInt (ps.getD (ps.length - 2) []) with
        | some v =>
          (v + delta, ps.take (ps.length - 2) ++ ps.drop (ps.length - 1))
        | none =>
          if ps.getD (ps.length - 2) [] = "active".toList then
            ((1 : Int), ps.take (ps.length - 2) ++ ps.drop (ps.length - 1))
          else ((1 : Int), ps)
      else ((1 : Int), ps)
    some (joinDot (vp.2.take (vp.2.length - 1) ++ [formatPy04 vp.1]
      ++ vp.2.drop (vp.2.length - 1)))

/-- `utils.get_version`: the second-to-last dot segment as an int, `none`
when there are at most two segments or it does not parse. -/
def get_version (path : Str) : Option Int :=
  let ps := splitDot path
  if ps.length ≤ 1 then none
  else if 2 < ps.length then pyInt (ps.getD (ps.length - 2) [])
  else none

end Utils

namespace MayaSrc

/-- Python `s.split(sep)` for a non-empty separator `a :: sepRest`,
left-to-right and non-overlapping, returned as first part plus remaining
parts (a Python split is never empty). -/
def pySplitNE (a : Char) (sepRest : Str) : Str → Str × List Str
  | [] => ([], [])
  | c :: cs =>
    if (a :: sepRest).isPrefixOf (c :: cs) then
      let rest := pySplitNE a sepRest (cs.drop sepRest.length)
      ([], rest.1 :: rest.2)
    else
      let rest := pySplitNE a sepRest cs
      (c :: rest.1, rest.2)
termination_by s => s.length
decreasing_by
  · simp only [List.length_cons, List.length_drop]
    omega
  · simp only [List.length_cons]
    omega

/-- Python `s.split(sep)` as a plain list. -/
def pySplit (a : Char) (sepRest : Str) (s : Str) : List Str :=
  (pySplitNE a sepRest s).1 :: (pySplitNE a sepRest s).2

/-- `name.split(':')[-1]`: the suffix after the last colon (the whole string
when there is none). -/
def afterLastColon (s : Str) : Str :=
  (s.reverse.takeWhile (fun c => c ≠ ':')).reverse

/-- Python `'|'.join` (and any other single-character join). -/
def joinWith (sep : Char) : List Str → Str
  | [] => []
  | [s] => s
  | s :: s₂ :: rest => s ++ sep :: joinWith sep (s₂ :: rest)

/-- `maya._remove_namespace`: split on the substring `.f` (face-assignment
suffix), strip the namespace (text up to the last `:`) from the first part,
and re-attach `.f` plus the second part when one exists (parts beyond the
second are dropped by the f-string). -/
def _remove_namespace (name : Str) : Str :=
  let face_assignment := pySplit '.' ['f'] name
  let without_namespace := afterLastColon (face_assignment.headD [])
  if 1 < face_assignment.length then
    without_namespace ++ '.' :: 'f' :: face_assignment.getD 1 []
  else without_namespace

/-- `maya.remove_namespaces`: strip namespaces from every `|`-separated
component of a DAG path. -/
def remove_namespaces (fullname : Str) : Str :=
  joinWith '|' ((pySplit '|' [] fullname).map _remove_namespace)

/-- The observable outcome of a `MayabatchExecuter.run` call up to the point
a subprocess is (or is not) launched. -/
inductive RunOutcome where
  | returnedNone
  | launchedWithFile (file : Str)
  | launchedWithoutFile
deriving DecidableEq

/-- Python-level exceptions raised by `MayabatchExecuter.run`. -/
inductive PyErr where
  | attributeError
deriving DecidableEq

/-- `path_maya_file.replace(chr(92), '/')` (single-character replace). -/
def replaceBackslash (s : Str) : Str :=
  s.map (fun c => if c = '\\' then '/' else c)

/-- The python command built from `func`:
`from {func[0]} import {func[1]}; {func[1]}()`. -/
def mkFuncCommand (m f : Str) : Str :=
  "from ".toList ++ m ++ " import ".toList ++ f ++ "; ".toList ++ f
    ++ "()".toList

/-- Python truthiness of an optional string: `None` and the empty string are
falsy. -/
def truthyOptStr : Option Str → Bool
  | none => false
  | some s => !s.isEmpty

/-- `maya.MayabatchExecuter.run` up to the launch decision.  `isfile`
abstracts `os.path.isfile`; the temp files written for the error side-channel
and the generated script do not influence which branch launches and are
elided.  Line 412 checks `path_maya_file and not os.path.isfile(...)`;
line 414 then dereferences `path_maya_file.replace`, raising
`AttributeError` when it is `None`; line 419 returns `None` when no command
remains; lines 449–453 launch with or without the `-file` argument depending
on the truthiness of `path_maya_file`. -/
def MayabatchExecuter.run (isfile : Str → Bool)
    (path_maya_file : Option Str) (command : Option Str)
    (func : Option (Str × Str)) : Except PyErr RunOutcome :=
  if truthyOptStr path_maya_file ∧ ¬ isfile (path_maya_file.getD []) then
    .ok .returnedNone
  else
    match path_maya_file with
    | none => .error .attributeError
    | some p =>
      let p := replaceBackslash p
      let command :=
        match func with
        | some mf => some (mkFuncCommand mf.1 mf.2)
        | none => command
      if ¬ truthyOptStr command then .ok .returnedNone
      else if p ≠ [] then .ok (.launchedWithFile p)
      else .ok .launchedWithoutFile

end MayaSrc

/-! ## Theorems -/

namespace AppExe

theorem lookupK_fsRemove (path : Str) (fs : Fs) :
    lookupK path (fsRemove path fs) = none := by
  induction fs with
  | nil => rfl
  | cons e rest ih =>
    by_cases h : e.1 = path
    · simpa [fsRemove, h] using ih
    · simp [fsRemove, lookupK, h, ih]

end AppExe

namespace Publisher

theorem join_map_singleton (l : List α) :
    (l.map (fun a => [a])).join = l := by
  induction l with
  | nil => rfl
  | cons a l ih => simp [ih]

/-- Invariant proof for the slicing loop: with `b * small ≤ remaining ≤ b * big`
the loop consumes the rest of the list exactly, in `b` non-empty batches. -/
theorem batchesGo_spec (items : List α) (small big : Nat)
    (hsmall : 1 ≤ small) (hsb : small ≤ big) (hbs : big ≤ small + 1) :
    ∀ b i, b * small + i ≤ items.length → items.length ≤ b * big + i →
      (batchesGo items small big b i).join = items.drop i
      ∧ (batchesGo items small big b i).length = b
      ∧ ∀ batch ∈ batchesGo items small big b i, batch ≠ [] := by
  intro b
  induction b with
  | zero =>
    intro i h₁ h₂
    have hlen : items.length ≤ i := by omega
    refine ⟨?_, rfl, ?_⟩
    · simp [batchesGo, List.drop_eq_nil_of_le hlen]
    · intro batch hb
      simp [batchesGo] at hb
  | succ b ih =>
    intro i h₁ h₂
    have hmul : b * small ≤ b * big := Nat.mul_le_mul_left b hsb
    have e₁ : (b + 1) * small = b * small + small := by ring
    have e₂ : (b + 1) * big = b * big + big := by ring
    by_cases hc : items.length - i ≤ (b + 1) * small
    · -- small batch: the remaining items are exactly (b+1) * small
      have hrem : items.length = (b + 1) * small + i := by omega
      have hnext₁ : b * small + (i + small) ≤ items.length := by omega
      have hnext₂ : items.length ≤ b * big + (i + small) := by omega
      obtain ⟨ihj, ihl, ihn⟩ := ih (i + small) hnext₁ hnext₂
      refine ⟨?_, ?_, ?_⟩
      · simp only [batchesGo, if_pos hc, List.join_cons, ihj]
        rw [← List.drop_drop, List.take_append_drop]
      · simp only [batchesGo, if_pos hc, List.length_cons, ihl]
      · intro batch hb
        simp only [batchesGo, if_pos hc, List.mem_cons] at hb
        rcases hb with hb | hb
        · subst hb
          have : ((items.drop i).take small).length = small := by
            rw [List.length_take, List.length_drop]
            omega
          intro hnil
          rw [hnil] at this
          simp at this
          omega
        · exact ihn batch hb
    · -- big batch
      have hc' : (b + 1) * small < items.length - i := Nat.lt_of_not_le hc
      have hnext₁ : b * small + (i + big) ≤ items.length := by omega
      have hnext₂ : items.length ≤ b * big + (i + big) := by omega
      obtain ⟨ihj, ihl, ihn⟩ := ih (i + big) hnext₁ hnext₂
      refine ⟨?_, ?_, ?_⟩
      · simp only [batchesGo, if_neg hc, List.join_cons, ihj]
        rw [← List.drop_drop, List.take_append_drop]
      · simp only [batchesGo, if_neg hc, List.length_cons, ihl]
      · intro batch hb
        simp only [batchesGo, if_neg hc, List.mem_cons] at hb
        rcases hb with hb | hb
        · subst hb
          have : ((items.drop i).take big).length = big := by
            rw [List.length_take, List.length_drop]
            omega
          intro hnil
          rw [hnil] at this
          simp at this
          omega
        · exact ihn batch hb

/-- Claim C9: for every list `items` and every `max_batches ≥ 1`, the batches
yielded by `split_into_batches items max_batches` concatenate, in order, back
to `items`, there are exactly `min items.length max_batches` of them, and
every batch is non-empty. -/
theorem C9_split_into_batches (items : List α) (max_batches : Nat)
    (h : 1 ≤ max_batches) :
    (split_into_batches items max_batches).join = items
    ∧ (split_into_batches items max_batches).length
        = min items.length max_batches
    ∧ ∀ batch ∈ split_into_batches items max_batches, batch ≠ [] := by
  by_cases hle : items.length ≤ max_batches
  · refine ⟨?_, ?_, ?_⟩
    · simp only [split_into_batches, if_pos hle]
      exact join_map_singleton items
    · simp [split_into_batches, if_pos hle, Nat.min_eq_left hle]
    · intro batch hb
      simp only [split_into_batches, if_pos hle, List.mem_map] at hb
      obtain ⟨a, _, rfl⟩ := hb
      simp
  · have hpos : 0 < max_batches := h
    have hlt : max_batches < items.length := Nat.lt_of_not_le hle
    set len := items.length with hlen
    set small := len / max_batches with hsmalldef
    set big := (len + max_batches - 1) / max_batches with hbigdef
    have hsmall : 1 ≤ small := by
      rw [hsmalldef]
      exact (Nat.one_le_div_iff hpos).mpr (Nat.le_of_lt hlt)
    have hsb : small ≤ big := by
      rw [hsmalldef, hbigdef]
      exact Nat.div_le_div_right (by omega)
    have hbs : big ≤ small + 1 := by
      rw [hsmalldef, hbigdef, ← Nat.add_div_right len hpos]
      exact Nat.div_le_div_right (by omega)
    have hfloor : max_batches * small ≤ len := by
      rw [hsmalldef, Nat.mul_comm]
      exact Nat.div_mul_le_self len max_batches
    have hceil : len ≤ max_batches * big := by
      have hdm := Nat.div_add_mod (len + max_batches - 1) max_batches
      have hmod : (len + max_batches - 1) % max_batches < max_batches :=
        Nat.mod_lt _ hpos
      rw [← hbigdef] at hdm
      generalize hA : max_batches * big = A at hdm ⊢
      omega
    obtain ⟨hj, hl, hn⟩ :=
      batchesGo_spec items small big hsmall hsb hbs max_batches 0
        (by omega) (by omega)
    refine ⟨?_, ?_, ?_⟩
    · simp only [split_into_batches, if_neg hle]
      rw [← hsmalldef, ← hbigdef] at *
      simpa using hj
    · simp only [split_into_batches, if_neg hle]
      rw [← hsmalldef, ← hbigdef] at *
      rw [hl, Nat.min_eq_right (Nat.le_of_lt hlt)]
    · intro batch hb
      simp only [split_into_batches, if_neg hle] at hb
      rw [← hsmalldef, ← hbigdef] at hb
      exact hn batch hb

/-- Witness for C9 at a concrete input. -/
theorem C9_split_into_batches_witness :
    (split_into_batches [0, 1, 2, 3, 4] 2).join = [0, 1, 2, 3, 4]
    ∧ (split_into_batches [0, 1, 2, 3, 4] 2).length
        = min ([0, 1, 2, 3, 4] : List Nat).length 2
    ∧ ∀ batch ∈ split_into_batches [0, 1, 2, 3, 4] 2, batch ≠ [] :=
  C9_split_into_batches [0, 1, 2, 3, 4] 2 (by decide)

end Publisher

namespace AppExe

/-- Claim C4: `Process.finish` sets `is_finished` to `True`; when an
`on_finish` callback was supplied it is invoked exactly once, with a
`ProcessResult` carrying the process name, executable path, argument list,
captured stdout and captured errors; when no callback was supplied nothing is
invoked and `is_finished` is still set. -/
theorem C4_finish_behaviour (p : Process) (stdout stderr : Str) :
    (p.finish stdout stderr).1.is_finished = true
    ∧ (p.on_finish = true →
        (p.finish stdout stderr).2 =
          [⟨p.name, p.exe, p.args, stdout,
            if stderr ≠ [] then stderr else []⟩])
    ∧ (p.on_finish = false → (p.finish stdout stderr).2 = []) := by
  cases h : p.on_finish <;>
    simp [Process.finish, Process.get_result, h]

/-- Witness for C4 at a concrete process. -/
theorem C4_finish_behaviour_witness :
    (Process.finish ⟨['p'], ['e'], [], true, false, none⟩ ['o'] []).1.is_finished
        = true
    ∧ (true = true →
        (Process.finish ⟨['p'], ['e'], [], true, false, none⟩ ['o'] []).2 =
          [⟨['p'], ['e'], [], ['o'], if ([] : Str) ≠ [] then [] else []⟩])
    ∧ (true = false →
        (Process.finish ⟨['p'], ['e'], [], true, false, none⟩ ['o'] []).2 = []) :=
  C4_finish_behaviour ⟨['p'], ['e'], [], true, false, none⟩ ['o'] []

/-- Claim C3: when a `MayaProcess` finishes, its result is the captured stdout
together with the side-channel error file's entire contents appended to the
captured stderr, and the error file is deleted afterwards. -/
theorem C3_maya_result (mp : MayaProcess) (stdout stderr contents : Str)
    (fs : Fs) (h : lookupK mp.path_errors fs = some contents) :
    mp.get_result stdout stderr fs =
      some ((stdout, stderr ++ contents), fsRemove mp.path_errors fs)
    ∧ lookupK mp.path_errors (fsRemove mp.path_errors fs) = none := by
  constructor
  · simp only [MayaProcess.get_result, Process.get_result, h]
    by_cases hs : stderr = [] <;> simp [hs]
  · exact lookupK_fsRemove _ _

/-- Witness for C3 at a concrete process and file system. -/
theorem C3_maya_result_witness :
    MayaProcess.get_result ⟨⟨['m'], ['e'], [], false, false, none⟩, ['t']⟩
        ['o'] ['s'] [(['t'], ['x'])] =
      some ((['o'], ['s'] ++ ['x']), fsRemove ['t'] [(['t'], ['x'])])
    ∧ lookupK ['t'] (fsRemove ['t'] [(['t'], ['x'])]) = none :=
  C3_maya_result ⟨⟨['m'], ['e'], [], false, false, none⟩, ['t']⟩
    ['o'] ['s'] ['x'] [(['t'], ['x'])] (by decide)

/-- Counterexample to claim C5: a state with two simultaneously running
managed subprocesses is reachable (two successive `AppExecuter.run` calls),
so the manager is not single-process-at-a-time as an invariant. -/
theorem C5_counterexample :
    AppReachable [true, true] ∧ 1 < runningCount [true, true] := by
  constructor
  · exact .step (.step .init (.runStarted [])) (.runStarted [true])
  · decide

/-- Claim C5, amended: each individual operation of the manager starts at most
one subprocess (every transition increases the number of running processes by
at most one); the manager does not bound how many subprocesses run
simultaneously. -/
theorem C5_amended_single_start {s t : List Bool} (h : AppStep s t) :
    runningCount t ≤ runningCount s + 1 := by
  cases h with
  | runStarted s => simp [runningCount, List.count_append]
  | runFailed s => simp [runningCount, List.count_append]
  | procFinish s₁ s₂ b =>
    simp only [runningCount, List.count_append, List.count_cons]
    cases b <;> simp <;> omega

/-- Witness for the amended C5 at a concrete transition. -/
theorem C5_amended_single_start_witness :
    runningCount [true] ≤ runningCount [] + 1 :=
  C5_amended_single_start (AppStep.runStarted [])

end AppExe

namespace FormulaManager

theorem evalGo_nil_none (rv : Str → Except Err PyVal)
    (e : PyVal → Except Err Str) (resolved : Str) :
    evalGo rv e [] none resolved = .ok resolved := rfl

theorem evalGo_nil_some (rv : Str → Except Err PyVal)
    (e : PyVal → Except Err Str) (v resolved : Str) :
    evalGo rv e [] (some v) resolved = .error .formulaEvaluation := rfl

theorem evalGo_bar_none (rv : Str → Except Err PyVal)
    (e : PyVal → Except Err Str) (cs resolved : Str) :
    evalGo rv e ('|' :: cs) none resolved = evalGo rv e cs (some []) resolved :=
  rfl

theorem evalGo_bar_some (rv : Str → Except Err PyVal)
    (e : PyVal → Except Err Str) (v cs resolved : Str) :
    evalGo rv e ('|' :: cs) (some v) resolved =
      match rv v with
      | .error err => .error err
      | .ok pv =>
        match e pv with
        | .error err => .error err
        | .ok r => evalGo rv e cs none (resolved ++ r) := rfl

theorem evalGo_chr_none {c : Char} (hc : c ≠ '|')
    (rv : Str → Except Err PyVal) (e : PyVal → Except Err Str)
    (cs resolved : Str) :
    evalGo rv e (c :: cs) none resolved = evalGo rv e cs none (resolved ++ [c]) := by
  simp [evalGo, hc]

theorem evalGo_chr_some {c : Char} (hc : c ≠ '|')
    (rv : Str → Except Err PyVal) (e : PyVal → Except Err Str)
    (v cs resolved : Str) :
    evalGo rv e (c :: cs) (some v) resolved
      = evalGo rv e cs (some (v ++ [c])) resolved := by
  simp [evalGo, hc]

/-- The loop of `_eval` is insensitive to replacing its callbacks by ones that
agree wherever the originals do not run out of fuel. -/
theorem evalGo_mono {r₁ r₂ : Str → Except Err PyVal}
    {e₁ e₂ : PyVal → Except Err Str}
    (hr : ∀ v, r₁ v ≠ .error .fuel → r₂ v = r₁ v)
    (he : ∀ pv, e₁ pv ≠ .error .fuel → e₂ pv = e₁ pv) :
    ∀ cs var resolved, evalGo r₁ e₁ cs var resolved ≠ .error .fuel →
      evalGo r₂ e₂ cs var resolved = evalGo r₁ e₁ cs var resolved := by
  intro cs
  induction cs with
  | nil =>
    intro var resolved _
    cases var <;> rfl
  | cons c cs ih =>
    intro var resolved h
    by_cases hc : c = '|'
    · subst hc
      cases var with
      | none =>
        simp only [evalGo_bar_none] at h ⊢
        exact ih _ _ h
      | some v =>
        simp only [evalGo_bar_some] at h ⊢
        cases hrv : r₁ v with
        | error err =>
          simp only [hrv] at h
          have hne : r₁ v ≠ .error .fuel := by
            rw [hrv]; intro hx; injection hx with hx
            exact h (by rw [hx])
          have h₂ : r₂ v = .error err := (hr v hne).trans hrv
          simp only [hrv, h₂]
        | ok pv =>
          simp only [hrv] at h
          have hne : r₁ v ≠ .error .fuel := by rw [hrv]; intro hx; injection hx
          have h₂ : r₂ v = .ok pv := (hr v hne).trans hrv
          simp only [hrv, h₂]
          cases hev : e₁ pv with
          | error err =>
            simp only [hev] at h
            have hne₂ : e₁ pv ≠ .error .fuel := by
              rw [hev]; intro hx; injection hx with hx
              exact h (by rw [hx])
            have h₃ : e₂ pv = .error err := (he pv hne₂).trans hev
            simp only [hev, h₃]
          | ok r =>
            simp only [hev] at h
            have hne₂ : e₁ pv ≠ .error .fuel := by rw [hev]; intro hx; injection hx
            have h₃ : e₂ pv = .ok r := (he pv hne₂).trans hev
            simp only [hev, h₃]
            exact ih _ _ h
    · cases var with
      | none =>
        simp only [evalGo_chr_none hc] at h ⊢
        exact ih _ _ h
      | some v =>
        simp only [evalGo_chr_some hc] at h ⊢
        exact ih _ _ h

/-- `_resolve_variable` is likewise insensitive to such a callback change. -/
theorem resolveVar_mono {repo : FormulaRepo} {kwargs : Kwargs}
    {e₁ e₂ : PyVal → Except Err Str}
    (he : ∀ pv, e₁ pv ≠ .error .fuel → e₂ pv = e₁ pv) (var : Str)
    (h : resolveVar repo kwargs e₁ var ≠ .error .fuel) :
    resolveVar repo kwargs e₂ var = resolveVar repo kwargs e₁ var := by
  unfold resolveVar at h ⊢
  cases htk : tryKeywords kwargs var RESERVED_KEYWORDS with
  | error err => simp only [htk]
  | ok o =>
    simp only [htk] at h ⊢
    cases o with
    | some v => rfl
    | none =>
      cases hlk : lookupK var kwargs with
      | some pv => simp only [hlk]
      | none =>
        simp only [hlk] at h ⊢
        cases hf : repo.get_formula var with
        | none => simp only [hf]
        | some f =>
          simp only [hf] at h ⊢
          by_cases hfe : f ≠ []
          · simp only [if_pos hfe] at h ⊢
            have hne : e₁ (.str f) ≠ .error .fuel := by
              cases hev : e₁ (.str f) with
              | ok r => intro hx; injection hx
              | error err =>
                simp only [hev] at h
                intro hx; injection hx with hx
                exact h (by rw [hx])
            rw [he _ hne]
          · simp only [if_neg hfe]

/-- Fuel monotonicity of `_eval`: one more unit of fuel does not change a
result that did not run out of fuel. -/
theorem evalF_mono (repo : FormulaRepo) (kwargs : Kwargs) :
    ∀ n pv, evalF repo kwargs n pv ≠ .error .fuel →
      evalF repo kwargs (n + 1) pv = evalF repo kwargs n pv := by
  intro n
  induction n with
  | zero => intro pv h; exact absurd rfl h
  | succ n ih =>
    intro pv h
    cases pv with
    | enum v => rfl
    | str s =>
      simp only [evalF] at h ⊢
      exact evalGo_mono (fun v hv => resolveVar_mono ih v hv) ih s none [] h

/-- Fuel monotonicity, `≤` form. -/
theorem evalF_le (repo : FormulaRepo) (kwargs : Kwargs) {m : Nat} :
    ∀ {n : Nat}, m ≤ n → ∀ pv, evalF repo kwargs m pv ≠ .error .fuel →
      evalF repo kwargs n pv = evalF repo kwargs m pv := by
  intro n
  induction n with
  | zero =>
    intro h pv _
    have hm : m = 0 := Nat.le_zero.mp h
    subst hm; rfl
  | succ n ih =>
    intro h pv hok
    rcases Nat.eq_or_lt_of_le h with heq | hlt
    · subst heq; rfl
    · have hmn : m ≤ n := Nat.lt_succ_iff.mp hlt
      have heq := ih hmn pv hok
      have hok₂ : evalF repo kwargs n pv ≠ .error .fuel := by
        rw [heq]; exact hok
      rw [evalF_mono repo kwargs n pv hok₂, heq]

theorem resolveVar_le (repo : FormulaRepo) (kwargs : Kwargs) {m n : Nat}
    (hmn : m ≤ n) (var : Str)
    (h : resolveVar repo kwargs (evalF repo kwargs m) var ≠ .error .fuel) :
    resolveVar repo kwargs (evalF repo kwargs n) var
      = resolveVar repo kwargs (evalF repo kwargs m) var :=
  resolveVar_mono (fun pv hpv => evalF_le repo kwargs hmn pv hpv) var h

theorem evalGo_le (repo : FormulaRepo) (kwargs : Kwargs) {m n : Nat}
    (hmn : m ≤ n) (cs : Str) (var : Option Str) (resolved : Str)
    (h : evalGo (resolveVar repo kwargs (evalF repo kwargs m))
          (evalF repo kwargs m) cs var resolved ≠ .error .fuel) :
    evalGo (resolveVar repo kwargs (evalF repo kwargs n))
        (evalF repo kwargs n) cs var resolved
      = evalGo (resolveVar repo kwargs (evalF repo kwargs m))
          (evalF repo kwargs m) cs var resolved :=
  evalGo_mono (fun v hv => resolveVar_le repo kwargs hmn v hv)
    (fun pv hpv => evalF_le repo kwargs hmn pv hpv) cs var resolved h

theorem noBar_nil : noBar [] := List.not_mem_nil _

theorem noBar_append {s t : Str} (hs : noBar s) (ht : noBar t) :
    noBar (s ++ t) := by
  intro hx
  rcases List.mem_append.mp hx with h | h
  · exact hs h
  · exact ht h

/-- Every string `_eval`'s loop returns is bar-free, provided the recursive
evaluator only returns bar-free strings. -/
theorem evalGo_noBar {rv : Str → Except Err PyVal}
    {e : PyVal → Except Err Str}
    (he : ∀ pv r, e pv = .ok r → noBar r) :
    ∀ cs var resolved out, noBar resolved →
      evalGo rv e cs var resolved = .ok out → noBar out := by
  intro cs
  induction cs with
  | nil =>
    intro var resolved out hres h
    cases var with
    | none =>
      rw [evalGo_nil_none] at h
      injection h with h
      rw [← h]; exact hres
    | some v =>
      rw [evalGo_nil_some] at h
      injection h
  | cons c cs ih =>
    intro var resolved out hres h
    by_cases hc : c = '|'
    · subst hc
      cases var with
      | none =>
        rw [evalGo_bar_none] at h
        exact ih _ _ _ hres h
      | some v =>
        rw [evalGo_bar_some] at h
        cases hrv : rv v with
        | error err => simp only [hrv] at h; injection h
        | ok pv =>
          simp only [hrv] at h
          cases hev : e pv with
          | error err => simp only [hev] at h; injection h
          | ok r =>
            simp only [hev] at h
            exact ih _ _ _ (noBar_append hres (he pv r hev)) h
    · cases var with
      | none =>
        rw [evalGo_chr_none hc] at h
        refine ih _ _ _ ?_ h
        refine noBar_append hres ?_
        intro hx
        rcases List.mem_singleton.mp hx with rfl
        exact hc rfl
      | some v =>
        rw [evalGo_chr_some hc] at h
        exact ih _ _ _ hres h

/-- Every string `_eval` returns is bar-free: every `|` in the input delimits
a token and resolved values are themselves recursively evaluated. -/
theorem evalF_noBar (repo : FormulaRepo) (kwargs : Kwargs) :
    ∀ n pv r, evalF repo kwargs n pv = .ok r → noBar r := by
  intro n
  induction n with
  | zero => intro pv r h; injection h
  | succ n ih =>
    intro pv r h
    cases pv with
    | enum v => injection h
    | str s =>
      simp only [evalF] at h
      exact evalGo_noBar ih s none [] r noBar_nil h

/-- A bar-free string evaluates to itself (a pure copy loop). -/
theorem evalGo_noBar_id (rv : Str → Except Err PyVal)
    (e : PyVal → Except Err Str) :
    ∀ cs resolved, noBar cs →
      evalGo rv e cs none resolved = .ok (resolved ++ cs) := by
  intro cs
  induction cs with
  | nil =>
    intro resolved _
    rw [evalGo_nil_none, List.append_nil]
  | cons c cs ih =>
    intro resolved h
    have hc : c ≠ '|' := by
      intro hx; subst hx; exact h (List.mem_cons_self _ _)
    have hcs : noBar cs := fun hx => h (List.mem_cons_of_mem _ hx)
    rw [evalGo_chr_none hc, ih _ hcs]
    simp

theorem evalF_noBar_id (repo : FormulaRepo) (kwargs : Kwargs) (n : Nat)
    (s : Str) (h : noBar s) :
    evalF repo kwargs (n + 1) (.str s) = .ok s := by
  simp only [evalF]
  rw [evalGo_noBar_id _ _ s [] h, List.nil_append]

end FormulaManager

namespace FormulaManager

theorem tokensGo_bar_none (cs : Str) :
    tokensGo ('|' :: cs) none = tokensGo cs (some []) := rfl

theorem tokensGo_bar_some (v : Str) (cs : Str) :
    tokensGo ('|' :: cs) (some v)
      = (tokensGo cs none).map (fun vs => v :: vs) := rfl

theorem tokensGo_chr_none {c : Char} (hc : c ≠ '|') (cs : Str) :
    tokensGo (c :: cs) none = tokensGo cs none := by
  simp [tokensGo, hc]

theorem tokensGo_chr_some {c : Char} (hc : c ≠ '|') (v : Str) (cs : Str) :
    tokensGo (c :: cs) (some v) = tokensGo cs (some (v ++ [c])) := by
  simp [tokensGo, hc]

/-- If every token of the remaining input can be resolved and its resolution
evaluated (each at some fuel), the whole loop succeeds at some fuel. -/
theorem evalGo_progress (repo : FormulaRepo) (kwargs : Kwargs) :
    ∀ cs var vs, tokensGo cs var = some vs →
      (∀ v ∈ vs, ∃ N pv w,
        resolveVar repo kwargs (evalF repo kwargs N) v = .ok pv
        ∧ evalF repo kwargs N pv = .ok w) →
      ∀ resolved, ∃ M out,
        evalGo (resolveVar repo kwargs (evalF repo kwargs M))
          (evalF repo kwargs M) cs var resolved = .ok out := by
  intro cs
  induction cs with
  | nil =>
    intro var vs htok hv resolved
    cases var with
    | none => exact ⟨0, resolved, rfl⟩
    | some v => exact absurd htok (by simp [tokensGo])
  | cons c cs ih =>
    intro var vs htok hv resolved
    by_cases hc : c = '|'
    · subst hc
      cases var with
      | none =>
        rw [tokensGo_bar_none] at htok
        obtain ⟨M, out, hgo⟩ := ih (some []) vs htok hv resolved
        exact ⟨M, out, by rw [evalGo_bar_none]; exact hgo⟩
      | some v =>
        rw [tokensGo_bar_some] at htok
        cases hts : tokensGo cs none with
        | none => rw [hts] at htok; injection htok
        | some vs₁ =>
          rw [hts] at htok
          have htok' : v :: vs₁ = vs := by simpa using htok
          obtain ⟨N, pv, w, hrv, hev⟩ :=
            hv v (by rw [← htok']; exact List.mem_cons_self _ _)
          obtain ⟨M, out, hgo⟩ := ih none vs₁ hts
            (fun u hu => hv u (by rw [← htok']; exact List.mem_cons_of_mem _ hu))
            (resolved ++ w)
          have hNK : N ≤ max N M := Nat.le_max_left _ _
          have hMK : M ≤ max N M := Nat.le_max_right _ _
          have hrvK : resolveVar repo kwargs (evalF repo kwargs (max N M)) v
              = .ok pv := by
            rw [resolveVar_le repo kwargs hNK v
              (by rw [hrv]; intro hx; injection hx)]
            exact hrv
          have hevK : evalF repo kwargs (max N M) pv = .ok w := by
            rw [evalF_le repo kwargs hNK pv
              (by rw [hev]; intro hx; injection hx)]
            exact hev
          have hgoK : evalGo (resolveVar repo kwargs (evalF repo kwargs (max N M)))
              (evalF repo kwargs (max N M)) cs none (resolved ++ w) = .ok out := by
            rw [evalGo_le repo kwargs hMK cs none (resolved ++ w)
              (by rw [hgo]; intro hx; injection hx)]
            exact hgo
          refine ⟨max N M, out, ?_⟩
          rw [evalGo_bar_some]
          simp only [hrvK, hevK]
          exact hgoK
    · cases var with
      | none =>
        rw [tokensGo_chr_none hc] at htok
        obtain ⟨M, out, hgo⟩ := ih none vs htok hv (resolved ++ [c])
        exact ⟨M, out, by rw [evalGo_chr_none hc]; exact hgo⟩
      | some v =>
        rw [tokensGo_chr_some hc] at htok
        obtain ⟨M, out, hgo⟩ := ih (some (v ++ [c])) vs htok hv resolved
        exact ⟨M, out, by rw [evalGo_chr_some hc]; exact hgo⟩

/-- If a token's static resolution target evaluates successfully at some fuel,
the actual `_resolve_variable` succeeds at some fuel and its result evaluates
successfully there too. -/
theorem resolveTarget_resolveVar (repo : FormulaRepo) (kwargs : Kwargs)
    (v r : Str) (hrt : resolveTarget repo kwargs v = some r)
    {N : Nat} {w : Str} (hw : evalF repo kwargs N (.str r) = .ok w) :
    ∃ M pv u, resolveVar repo kwargs (evalF repo kwargs M) v = .ok pv
      ∧ evalF repo kwargs M pv = .ok u := by
  unfold resolveTarget at hrt
  cases htk : tryKeywords kwargs v RESERVED_KEYWORDS with
  | error err =>
    simp only [htk] at hrt
    exact Option.noConfusion hrt
  | ok o =>
    simp only [htk] at hrt
    cases o with
    | some val =>
      injection hrt with hrt
      subst hrt
      refine ⟨N, .str val, w, ?_, hw⟩
      unfold resolveVar
      simp only [htk]
    | none =>
      cases hlk : lookupK v kwargs with
      | some pv =>
        cases pv with
        | str s =>
          simp only [hlk] at hrt
          injection hrt with hrt
          subst hrt
          refine ⟨N, .str s, w, ?_, hw⟩
          unfold resolveVar
          simp only [htk, hlk]
        | enum u =>
          simp only [hlk] at hrt
          exact Option.noConfusion hrt
      | none =>
        simp only [hlk] at hrt
        cases hf : repo.get_formula v with
        | none =>
          simp only [hf] at hrt
          exact Option.noConfusion hrt
        | some f =>
          simp only [hf] at hrt
          by_cases hfe : f ≠ []
          · rw [if_pos hfe] at hrt
            injection hrt with hrt
            have hbar : noBar w := evalF_noBar repo kwargs N _ _ hw
            refine ⟨N + w.length + 2, .str w, w, ?_, ?_⟩
            · unfold resolveVar
              simp only [htk, hlk, hf, hrt]
              have hre : r ≠ [] := by rw [← hrt]; exact hfe
              have hle : evalF repo kwargs (N + w.length + 2) (.str r) = .ok w := by
                rw [evalF_le repo kwargs (show N ≤ N + w.length + 2 by omega)
                  (.str r) (by rw [hw]; intro hx; injection hx)]
                exact hw
              simp only [if_pos hre, hle]
            · have heq : N + w.length + 2 = (N + w.length + 1) + 1 := by omega
              rw [heq]
              exact evalF_noBar_id repo kwargs (N + w.length + 1) w hbar
          · rw [if_neg hfe] at hrt
            exact Option.noConfusion hrt

/-- Main termination argument: on a set of strings closed under token
resolution, ranked so that every resolution strictly decreases the rank
(the finite reference graph is acyclic), `_eval` succeeds at some fuel. -/
theorem evalF_terminates (repo : FormulaRepo) (kwargs : Kwargs)
    (P : Str → Prop) (μ : Str → Nat)
    (hclosed : ∀ t, P t → ∃ vs, tokensOf t = some vs ∧
      ∀ v ∈ vs, ∃ r, resolveTarget repo kwargs v = some r ∧ P r ∧ μ r < μ t) :
    ∀ k t, P t → μ t ≤ k → ∃ N out, evalF repo kwargs N (.str t) = .ok out := by
  intro k
  induction k with
  | zero =>
    intro t hP hμ
    obtain ⟨vs, htok, hv⟩ := hclosed t hP
    have hvs : ∀ v ∈ vs, ∃ N pv w,
        resolveVar repo kwargs (evalF repo kwargs N) v = .ok pv
        ∧ evalF repo kwargs N pv = .ok w := by
      intro v hvmem
      obtain ⟨r, _, _, hlt⟩ := hv v hvmem
      exact absurd hlt (by omega)
    obtain ⟨M, out, hgo⟩ := evalGo_progress repo kwargs t none vs htok hvs []
    exact ⟨M + 1, out, by simp only [evalF]; exact hgo⟩
  | succ k ih =>
    intro t hP hμ
    obtain ⟨vs, htok, hv⟩ := hclosed t hP
    have hvs : ∀ v ∈ vs, ∃ N pv w,
        resolveVar repo kwargs (evalF repo kwargs N) v = .ok pv
        ∧ evalF repo kwargs N pv = .ok w := by
      intro v hvmem
      obtain ⟨r, hrt, hPr, hlt⟩ := hv v hvmem
      obtain ⟨N, w, hw⟩ := ih r hPr (by omega)
      exact resolveTarget_resolveVar repo kwargs v r hrt hw
    obtain ⟨M, out, hgo⟩ := evalGo_progress repo kwargs t none vs htok hvs []
    exact ⟨M + 1, out, by simp only [evalF]; exact hgo⟩

/-- Errors of the member loop are `AttributeError`s only. -/
theorem tryMembers_err (DEFAULT : Str) (kwargs : Kwargs) (value : Str) :
    ∀ ms err, tryMembers DEFAULT kwargs value ms = .error err → err = .py := by
  intro ms
  induction ms with
  | nil => intro err h; injection h
  | cons m rest ih =>
    obtain ⟨name, v⟩ := m
    intro err h
    simp only [tryMembers] at h
    by_cases hname : name.map Char.toLower = value
    · rw [if_pos hname] at h
      cases hlk : lookupK DEFAULT kwargs with
      | none => rw [hlk] at h; injection h
      | some pv =>
        rw [hlk] at h
        cases pv with
        | str s => injection h with h; exact h.symm
        | enum u => injection h
    · rw [if_neg hname] at h
      exact ih err h

/-- Errors of `try_to_resolve` are `AttributeError`s only. -/
theorem try_to_resolve_err (cls : ReservedVariable) (value : Str)
    (kwargs : Kwargs) (err : Err)
    (h : cls.try_to_resolve value kwargs = .error err) : err = .py := by
  unfold ReservedVariable.try_to_resolve at h
  by_cases hd : cls.DEFAULT = value
  · rw [if_pos hd] at h
    cases hlk : lookupK cls.DEFAULT kwargs with
    | none => rw [hlk] at h; injection h
    | some pv =>
      rw [hlk] at h
      cases pv with
      | str s => injection h with h; exact h.symm
      | enum u => injection h
  · rw [if_neg hd] at h
    exact tryMembers_err cls.DEFAULT kwargs value cls.members err h

/-- Errors of the reserved-keyword loop are `AttributeError`s only. -/
theorem tryKeywords_err (kwargs : Kwargs) (v : Str) :
    ∀ ks err, tryKeywords kwargs v ks = .error err → err = .py := by
  intro ks
  induction ks with
  | nil => intro err h; injection h
  | cons cls rest ih =>
    intro err h
    simp only [tryKeywords] at h
    cases htr : cls.try_to_resolve v kwargs with
    | error e =>
      simp only [htr] at h
      injection h with h
      rw [← h]
      exact try_to_resolve_err cls v kwargs e htr
    | ok o =>
      simp only [htr] at h
      cases o with
      | some u =>
        have h₁ : (if u ≠ [] then (Except.ok (some u) : Except Err (Option Str))
            else tryKeywords kwargs v rest) = .error err := h
        by_cases hu : u ≠ []
        · rw [if_pos hu] at h₁; injection h₁
        · rw [if_neg hu] at h₁; exact ih err h₁
      | none =>
        have h₁ : tryKeywords kwargs v rest = .error err := h
        exact ih err h₁

/-- The `_eval` loop never raises `FormulaNotFoundError`. -/
theorem evalGo_ne_notFound {rv : Str → Except Err PyVal}
    {e : PyVal → Except Err Str}
    (hrv : ∀ v, rv v ≠ .error .formulaNotFound)
    (he : ∀ pv, e pv ≠ .error .formulaNotFound) :
    ∀ cs var resolved,
      evalGo rv e cs var resolved ≠ .error .formulaNotFound := by
  intro cs
  induction cs with
  | nil =>
    intro var resolved
    cases var with
    | none => rw [evalGo_nil_none]; intro h; injection h
    | some v =>
      rw [evalGo_nil_some]
      intro h; injection h with h
      exact Err.noConfusion h
  | cons c cs ih =>
    intro var resolved
    by_cases hc : c = '|'
    · subst hc
      cases var with
      | none => rw [evalGo_bar_none]; exact ih _ _
      | some v =>
        rw [evalGo_bar_some]
        cases hr : rv v with
        | error err =>
          simp only [hr]
          intro hx; injection hx with hx
          exact hrv v (by rw [hr, hx])
        | ok pv =>
          simp only [hr]
          cases hev : e pv with
          | error err =>
            simp only [hev]
            intro hx; injection hx with hx
            exact he pv (by rw [hev, hx])
          | ok r => simp only [hev]; exact ih _ _
    · cases var with
      | none => rw [evalGo_chr_none hc]; exact ih _ _
      | some v => rw [evalGo_chr_some hc]; exact ih _ _

/-- `_resolve_variable` never raises `FormulaNotFoundError` (missing formulas
reached through `get_formula` raise `FormulaArgumentError` instead). -/
theorem resolveVar_ne_notFound {repo : FormulaRepo} {kwargs : Kwargs}
    {e : PyVal → Except Err Str}
    (he : ∀ pv, e pv ≠ .error .formulaNotFound) (v : Str) :
    resolveVar repo kwargs e v ≠ .error .formulaNotFound := by
  unfold resolveVar
  cases htk : tryKeywords kwargs v RESERVED_KEYWORDS with
  | error err =>
    simp only [htk]
    intro hx; injection hx with hx
    have hpy := tryKeywords_err kwargs v RESERVED_KEYWORDS err htk
    rw [hpy] at hx
    exact Err.noConfusion hx
  | ok o =>
    cases o with
    | some u => intro hx; injection hx
    | none =>
      cases hlk : lookupK v kwargs with
      | some pv => simp only [hlk]; intro hx; injection hx
      | none =>
        simp only [hlk]
        cases hf : repo.get_formula v with
        | none =>
          simp only [hf]
          intro hx; injection hx with hx
          exact Err.noConfusion hx
        | some f =>
          simp only [hf]
          by_cases hfe : f ≠ []
          · rw [if_pos hfe]
            cases hev : e (.str f) with
            | error err =>
              simp only [hev]
              intro hx; injection hx with hx
              exact he (.str f) (by rw [hev, hx])
            | ok r => simp only [hev]; intro hx; injection hx
          · rw [if_neg hfe]
            intro hx; injection hx with hx
            exact Err.noConfusion hx

/-- `_eval` never raises `FormulaNotFoundError`. -/
theorem evalF_ne_notFound (repo : FormulaRepo) (kwargs : Kwargs) :
    ∀ n pv, evalF repo kwargs n pv ≠ .error .formulaNotFound := by
  intro n
  induction n with
  | zero =>
    intro pv hx; injection hx with hx
    exact Err.noConfusion hx
  | succ n ih =>
    intro pv
    cases pv with
    | enum v =>
      intro hx; injection hx with hx
      exact Err.noConfusion hx
    | str s =>
      simp only [evalF]
      exact evalGo_ne_notFound (fun v => resolveVar_ne_notFound ih v) ih s none []

end FormulaManager

namespace FormulaManager

/-- Claim C1: `_resolve_variable` tries, in order, the reserved keywords
(`Drive` then `Disk`, where a kwarg stored under the keyword's default name
overrides the value that keyword would resolve to), then the kwargs under the
token itself, then other formulas; the first source that succeeds (is truthy)
wins and later sources are never consulted — in particular the formula table
and the recursive evaluator are irrelevant once a keyword or kwarg matches,
and anything after `Drive` in the keyword list is irrelevant once `Drive`
resolves truthily. -/
theorem C1_resolution_order :
    (∀ (repo : FormulaRepo) (kwargs : Kwargs) (e : PyVal → Except Err Str)
        (var val : Str),
      tryKeywords kwargs var RESERVED_KEYWORDS = .ok (some val) →
      resolveVar repo kwargs e var = .ok (.str val))
    ∧ (∀ (repo : FormulaRepo) (kwargs : Kwargs) (e : PyVal → Except Err Str)
        (var : Str) (pv : PyVal),
      tryKeywords kwargs var RESERVED_KEYWORDS = .ok none →
      lookupK var kwargs = some pv →
      resolveVar repo kwargs e var = .ok pv)
    ∧ (∀ (repo : FormulaRepo) (kwargs : Kwargs) (e : PyVal → Except Err Str)
        (var f : Str),
      tryKeywords kwargs var RESERVED_KEYWORDS = .ok none →
      lookupK var kwargs = none →
      repo.get_formula var = some f → f ≠ [] →
      resolveVar repo kwargs e var = (e (.str f)).map PyVal.str)
    ∧ (∀ (cls : ReservedVariable) (kwargs : Kwargs) (var w : Str),
      cls.DEFAULT = var → lookupK cls.DEFAULT kwargs = some (.enum w) →
      cls.try_to_resolve var kwargs = .ok (some w))
    ∧ (∀ (kwargs : Kwargs) (var val : Str) (rest : List ReservedVariable),
      Drive.try_to_resolve var kwargs = .ok (some val) → val ≠ [] →
      tryKeywords kwargs var (Drive :: rest) = .ok (some val)) := by
  refine ⟨?_, ?_, ?_, ?_, ?_⟩
  · intro repo kwargs e var val h
    unfold resolveVar
    simp [h]
  · intro repo kwargs e var pv h₁ h₂
    unfold resolveVar
    simp [h₁, h₂]
  · intro repo kwargs e var f h₁ h₂ h₃ h₄
    unfold resolveVar
    simp only [h₁, h₂, h₃, if_pos h₄]
    cases hev : e (.str f) <;> simp [hev, Except.map]
  · intro cls kwargs var w h₁ h₂
    unfold ReservedVariable.try_to_resolve
    rw [if_pos h₁]
    simp [h₂, PyVal.value, Except.map]
  · intro kwargs var val rest h₁ h₂
    simp only [tryKeywords, h₁]
    rw [if_pos h₂]

/-- Witness for C1 at concrete inputs: a keyword hit, a kwarg hit, a formula
hit, a kwarg override of a keyword, and a `Drive`-before-anything hit. -/
theorem C1_resolution_order_witness :
    resolveVar wrepo [] (fun _ => .error .py) "drive".toList
        = .ok (.str "~/Box/Capstone_Uploads".toList)
    ∧ resolveVar wrepo [("k".toList, .str "v".toList)] (fun _ => .error .py)
        "k".toList = .ok (.str "v".toList)
    ∧ resolveVar wrepo [] (fun _ : PyVal => (.error .py : Except Err Str))
        "b".toList
        = Except.map PyVal.str
            ((fun _ : PyVal => (.error .py : Except Err Str))
              (PyVal.str "z".toList))
    ∧ Drive.try_to_resolve "drive".toList [("drive".toList, .enum "D".toList)]
        = .ok (some "D".toList)
    ∧ tryKeywords [] "box".toList (Drive :: [])
        = .ok (some "~/Box/Capstone_Uploads".toList) :=
  ⟨C1_resolution_order.1 wrepo [] _ "drive".toList _ rfl,
   C1_resolution_order.2.1 wrepo [("k".toList, .str "v".toList)] _
     "k".toList _ rfl rfl,
   C1_resolution_order.2.2.1 wrepo [] _ "b".toList "z".toList rfl rfl rfl
     (by decide),
   C1_resolution_order.2.2.2.1 Drive [("drive".toList, .enum "D".toList)]
     "drive".toList "D".toList rfl rfl,
   C1_resolution_order.2.2.2.2 [] "box".toList
     "~/Box/Capstone_Uploads".toList [] rfl (by decide)⟩

/-- Claim C2: formula evaluation is a recursive substitution (each resolved
value is re-evaluated, which is the `resolved += self._eval(...)` step
embodied in `evalGo`), and on a repo whose reference graph — formulas,
reserved keywords and kwarg values, with edges given by `resolveTarget` — is
acyclic (witnessed by a rank `μ` strictly decreasing along every edge of a
closed set `P`), `_eval` terminates successfully and its result contains no
`|` characters. -/
theorem C2_eval_terminates (repo : FormulaRepo) (kwargs : Kwargs)
    (P : Str → Prop) (μ : Str → Nat) (s : Str) (hs : P s)
    (hacyclic : ∀ t, P t → ∃ vs, tokensOf t = some vs ∧
      ∀ v ∈ vs, ∃ r, resolveTarget repo kwargs v = some r ∧ P r ∧ μ r < μ t) :
    ∃ N out, evalF repo kwargs N (.str s) = .ok out ∧ noBar out := by
  obtain ⟨N, out, h⟩ :=
    evalF_terminates repo kwargs P μ hacyclic (μ s) s hs (Nat.le_refl _)
  exact ⟨N, out, h, evalF_noBar repo kwargs N _ _ h⟩

/-- Witness for C2 on the two-formula repo `a = "x|b|y"`, `b = "z"`. -/
theorem C2_eval_terminates_witness :
    ∃ N out, evalF wrepo [] N (.str "x|b|y".toList) = .ok out ∧ noBar out :=
  C2_eval_terminates wrepo []
    (fun t => t = "x|b|y".toList ∨ t = "z".toList) (fun t => t.length)
    "x|b|y".toList (Or.inl rfl)
    (by
      intro t ht
      rcases ht with rfl | rfl
      · refine ⟨["b".toList], rfl, ?_⟩
        intro v hv
        rw [List.mem_singleton] at hv
        subst hv
        exact ⟨"z".toList, rfl, Or.inr rfl, by decide⟩
      · exact ⟨[], rfl, by intro v hv; exact absurd hv (List.not_mem_nil v)⟩)

/-- Helper: on the self-referential repo `a = "|a|"`, evaluation exhausts
every recursion budget — the fuel error occurs at every depth. -/
theorem cycRepo_eval_fuel :
    ∀ n, cycRepo.eval "a".toList [] n = .error .fuel := by
  have key : ∀ n, evalF cycRepo [] n (.str "|a|".toList) = .error .fuel := by
    intro n
    induction n with
    | zero => rfl
    | succ n ih =>
      have h₁ : resolveVar cycRepo [] (evalF cycRepo [] n) "a".toList
          = .error .fuel := by
        have hdef : resolveVar cycRepo [] (evalF cycRepo [] n) "a".toList
            = match evalF cycRepo [] n (.str "|a|".toList) with
              | .error e => (.error e : Except Err PyVal)
              | .ok r => .ok (.str r) := rfl
        rw [hdef, ih]
      have h₂ : evalF cycRepo [] (n + 1) (.str "|a|".toList)
          = match resolveVar cycRepo [] (evalF cycRepo [] n) "a".toList with
            | .error e => (.error e : Except Err Str)
            | .ok rv =>
              match evalF cycRepo [] n rv with
              | .error e => .error e
              | .ok r =>
                evalGo (resolveVar cycRepo [] (evalF cycRepo [] n))
                  (evalF cycRepo [] n) [] none ([] ++ r) := rfl
      rw [h₂, h₁]
  intro n
  have h : cycRepo.eval "a".toList [] n
      = evalF cycRepo [] n (.str "|a|".toList) := rfl
  rw [h, key n]

/-- Counterexample to C7 as stated: on the self-referential repo
`a = "|a|"` — a well-formed formula whose only token resolves — evaluation
still fails at recursion depth 1000 (the default Python recursion limit);
by `cycRepo_eval_fuel` the same holds at every depth, so Python raises
`RecursionError` and `eval` does not return a resolved string in every
non-error case. -/
theorem C7_counterexample :
    cycRepo.eval "a".toList [] 1000 = .error .fuel :=
  cycRepo_eval_fuel 1000

/-- Claim C7, amended: `eval` raises `FormulaNotFoundError` iff the
(prefix-stripped) name is absent from the repo; a token that matches no
truthy reserved keyword, no kwarg and no truthy formula raises
`FormulaArgumentError`; and on a found formula whose reference graph is
acyclic (rank-decreasing over a closed set) evaluation returns a resolved,
bar-free string without raising.  (Unrestricted, the returns-a-string part is
false: a cyclic formula recurses forever, see the counterexample.) -/
theorem C7_eval_errors (repo : FormulaRepo) (kwargs : Kwargs) :
    (∀ name fuel, repo.eval name kwargs fuel = .error .formulaNotFound ↔
        lookupK (repo.remove_pre name) repo.formulas = none)
    ∧ (∀ (e : PyVal → Except Err Str) (var : Str),
        tryKeywords kwargs var RESERVED_KEYWORDS = .ok none →
        lookupK var kwargs = none →
        (∀ f, repo.get_formula var = some f → f = []) →
        resolveVar repo kwargs e var = .error .formulaArgument)
    ∧ (∀ (P : Str → Prop) (μ : Str → Nat) (name formula : Str),
        lookupK (repo.remove_pre name) repo.formulas = some formula →
        P formula →
        (∀ t, P t → ∃ vs, tokensOf t = some vs ∧
          ∀ v ∈ vs, ∃ r, resolveTarget repo kwargs v = some r ∧ P r ∧ μ r < μ t) →
        ∃ N out, repo.eval name kwargs N = .ok out ∧ noBar out) := by
  refine ⟨?_, ?_, ?_⟩
  · intro name fuel
    unfold FormulaRepo.eval
    cases hlk : lookupK (repo.remove_pre name) repo.formulas with
    | none => simp
    | some formula =>
      constructor
      · intro hx
        have hx₁ : evalF repo kwargs fuel (.str formula)
            = .error .formulaNotFound := hx
        exact absurd hx₁ (evalF_ne_notFound repo kwargs fuel _)
      · intro hx
        exact Option.noConfusion hx
  · intro e var htk hlk hf
    unfold resolveVar
    cases hg : repo.get_formula var with
    | none => simp [htk, hlk, hg]
    | some f =>
      have hfe : f = [] := hf f hg
      subst hfe
      simp [htk, hlk, hg]
  · intro P μ name formula hlk hP hclosed
    obtain ⟨N, out, hout⟩ :=
      evalF_terminates repo kwargs P μ hclosed (μ formula) formula hP
        (Nat.le_refl _)
    refine ⟨N, out, ?_, evalF_noBar repo kwargs N _ _ hout⟩
    unfold FormulaRepo.eval
    simp only [hlk]
    exact hout

/-- Witness for the amended C7: a missing name, an unresolvable token, and a
successful acyclic evaluation, all on concrete inputs. -/
theorem C7_eval_errors_witness :
    (wrepo.eval "missing".toList [] 5 = .error .formulaNotFound ↔
      lookupK (wrepo.remove_pre "missing".toList) wrepo.formulas = none)
    ∧ resolveVar wrepo [] (fun _ => .error .py) "nope".toList
        = .error .formulaArgument
    ∧ (∃ N out, wrepo.eval "a".toList [] N = .ok out ∧ noBar out) := by
  refine ⟨(C7_eval_errors wrepo []).1 "missing".toList 5,
    (C7_eval_errors wrepo []).2.1 (fun _ => .error .py) "nope".toList rfl rfl
      ?_,
    (C7_eval_errors wrepo []).2.2
      (fun t => t = "x|b|y".toList ∨ t = "z".toList) (fun t => t.length)
      "a".toList "x|b|y".toList rfl (Or.inl rfl) ?_⟩
  · intro f hf
    rw [show wrepo.get_formula "nope".toList = (none : Option Str) from rfl]
      at hf
    exact Option.noConfusion hf
  · intro t ht
    rcases ht with rfl | rfl
    · refine ⟨["b".toList], rfl, ?_⟩
      intro v hv
      rw [List.mem_singleton] at hv
      subst hv
      exact ⟨"z".toList, rfl, Or.inr rfl, by decide⟩
    · exact ⟨[], rfl, by intro v hv; exact absurd hv (List.not_mem_nil v)⟩

end FormulaManager

namespace Utils

theorem splitDot_dot (cs : Str) : splitDot ('.' :: cs) = [] :: splitDot cs :=
  rfl

theorem splitDot_chr {c : Char} (hc : c ≠ '.') (cs : Str) :
    splitDot (c :: cs)
      = match splitDot cs with
        | p :: ps => (c :: p) :: ps
        | [] => [[c]] := by
  simp [splitDot, hc]

theorem splitDot_ne_nil (s : Str) : splitDot s ≠ [] := by
  cases s with
  | nil => simp [splitDot]
  | cons c cs =>
    by_cases hc : c = '.'
    · subst hc; rw [splitDot_dot]; simp
    · rw [splitDot_chr hc]
      cases splitDot cs with
      | nil => simp
      | cons p ps => simp

theorem splitDot_parts_noDot : ∀ (s : Str), ∀ p ∈ splitDot s, '.' ∉ p := by
  intro s
  induction s with
  | nil =>
    intro p hp
    simp only [splitDot, List.mem_singleton] at hp
    subst hp
    exact List.not_mem_nil _
  | cons c cs ih =>
    intro p hp
    by_cases hc : c = '.'
    · subst hc
      rw [splitDot_dot] at hp
      rcases List.mem_cons.mp hp with rfl | hp
      · exact List.not_mem_nil _
      · exact ih p hp
    · rw [splitDot_chr hc] at hp
      cases hsp : splitDot cs with
      | nil => exact absurd hsp (splitDot_ne_nil cs)
      | cons q qs =>
        rw [hsp] at hp
        rcases List.mem_cons.mp hp with rfl | hp
        · intro hmem
          rcases List.mem_cons.mp hmem with h | h
          · exact hc h.symm
          · exact ih q (by rw [hsp]; exact List.mem_cons_self _ _) h
        · exact ih p (by rw [hsp]; exact List.mem_cons_of_mem _ hp)

theorem splitDot_noDot : ∀ s : Str, '.' ∉ s → splitDot s = [s] := by
  intro s
  induction s with
  | nil => intro _; rfl
  | cons c cs ih =>
    intro h
    have hc : c ≠ '.' := by
      intro hx; subst hx; exact h (List.mem_cons_self _ _)
    have hcs : '.' ∉ cs := fun hx => h (List.mem_cons_of_mem _ hx)
    simp only [splitDot_chr hc, ih hcs]

theorem splitDot_append_sep : ∀ s t : Str, '.' ∉ s →
    splitDot (s ++ '.' :: t) = s :: splitDot t := by
  intro s
  induction s with
  | nil => intro t _; rw [List.nil_append, splitDot_dot]
  | cons c s₁ ih =>
    intro t h
    have hc : c ≠ '.' := by
      intro hx; subst hx; exact h (List.mem_cons_self _ _)
    have hs₁ : '.' ∉ s₁ := fun hx => h (List.mem_cons_of_mem _ hx)
    rw [List.cons_append]
    simp only [splitDot_chr hc, ih t hs₁]

theorem splitDot_joinDot : ∀ ss : List Str, ss ≠ [] → (∀ s ∈ ss, '.' ∉ s) →
    splitDot (joinDot ss) = ss := by
  intro ss
  induction ss with
  | nil => intro h _; exact absurd rfl h
  | cons a rest ih =>
    intro _ hall
    cases rest with
    | nil => exact splitDot_noDot a (hall a (List.mem_cons_self _ _))
    | cons b rest₁ =>
      rw [show joinDot (a :: b :: rest₁) = a ++ '.' :: joinDot (b :: rest₁)
        from rfl]
      rw [splitDot_append_sep _ _ (hall a (List.mem_cons_self _ _))]
      rw [ih (by simp) (fun s hs => hall s (List.mem_cons_of_mem _ hs))]

/-- The digit emitter produces, in front of the accumulator, a non-empty,
dot-free, all-digit string whose decimal value is `n`, provided the fuel
covers the digit count. -/
theorem digits_facts : ∀ f n (acc : Str), n < 10 ^ (f + 1) →
    ∃ ds, natDigitsGo (f + 1) n acc = ds ++ acc
      ∧ ds ≠ []
      ∧ (∀ c ∈ ds, c.isDigit = true ∧ c ≠ '.')
      ∧ List.foldl (fun a c => a * 10 + digitVal c) 0 ds = n := by
  intro f
  induction f with
  | zero =>
    intro n acc h
    have hn : n < 10 := by simpa using h
    refine ⟨[Char.ofNat (48 + n)], by simp [natDigitsGo, hn], by simp, ?_, ?_⟩
    · intro c hc
      rw [List.mem_singleton] at hc
      subst hc
      interval_cases n <;> exact ⟨by decide, by decide⟩
    · simp only [List.foldl]
      interval_cases n <;> decide
  | succ f ih =>
    intro n acc h
    by_cases hn : n < 10
    · refine ⟨[Char.ofNat (48 + n)], by simp [natDigitsGo, hn], by simp, ?_, ?_⟩
      · intro c hc
        rw [List.mem_singleton] at hc
        subst hc
        interval_cases n <;> exact ⟨by decide, by decide⟩
      · simp only [List.foldl]
        interval_cases n <;> decide
    · have hdiv : n / 10 < 10 ^ (f + 1) := by
        have h10 : (10 : Nat) ^ (f + 1 + 1) = 10 ^ (f + 1) * 10 := by ring
        rw [h10] at h
        omega
      obtain ⟨ds₁, hds₁, hne₁, hdig₁, hfold₁⟩ :=
        ih (n / 10) (Char.ofNat (48 + n % 10) :: acc) hdiv
      have hm : n % 10 < 10 := Nat.mod_lt _ (by omega)
      refine ⟨ds₁ ++ [Char.ofNat (48 + n % 10)], ?_, by simp, ?_, ?_⟩
      · have hstep : natDigitsGo (f + 1 + 1) n acc
            = natDigitsGo (f + 1) (n / 10) (Char.ofNat (48 + n % 10) :: acc) := by
          simp [natDigitsGo, hn]
        rw [hstep, hds₁]
        simp
      · intro c hc
        rcases List.mem_append.mp hc with h₁ | h₁
        · exact hdig₁ c h₁
        · rw [List.mem_singleton] at h₁
          subst h₁
          obtain ⟨m, hgm, hm₂⟩ : ∃ m, n % 10 = m ∧ m < 10 := ⟨_, rfl, hm⟩
          rw [hgm]
          interval_cases m <;> exact ⟨by decide, by decide⟩
      · rw [List.foldl_append]
        simp only [List.foldl]
        rw [hfold₁]
        have hdv : digitVal (Char.ofNat (48 + n % 10)) = n % 10 := by
          obtain ⟨m, hgm, hm₂⟩ : ∃ m, n % 10 = m ∧ m < 10 := ⟨_, rfl, hm⟩
          rw [hgm]
          interval_cases m <;> decide
        rw [hdv]
        omega

theorem natDigits_facts (n : Nat) :
    ∃ ds, natDigits n = ds ∧ ds ≠ []
      ∧ (∀ c ∈ ds, c.isDigit = true ∧ c ≠ '.')
      ∧ List.foldl (fun a c => a * 10 + digitVal c) 0 ds = n := by
  have hpow : n < 10 ^ (n + 1) :=
    calc n < 2 ^ n := Nat.lt_two_pow n
    _ ≤ 10 ^ n := Nat.pow_le_pow_left (by omega) n
    _ ≤ 10 ^ (n + 1) := Nat.pow_le_pow_right (by omega) (by omega)
  obtain ⟨ds, hds, hne, hdig, hfold⟩ := digits_facts n n [] hpow
  refine ⟨ds, ?_, hne, hdig, hfold⟩
  rw [natDigits, hds, List.append_nil]

theorem foldl_zeros (k : Nat) :
    List.foldl (fun a c => a * 10 + digitVal c) 0 (List.replicate k '0')
      = 0 := by
  induction k with
  | zero => rfl
  | succ k ih =>
    rw [List.replicate_succ]
    simp only [List.foldl]
    rw [show (0 * 10 + digitVal '0') = 0 from by decide]
    exact ih

theorem parseDigits_pad (k : Nat) (ds : Str) (hne : ds ≠ [])
    (hdig : ∀ c ∈ ds, c.isDigit = true) :
    parseDigits (List.replicate k '0' ++ ds)
      = some (List.foldl (fun a c => a * 10 + digitVal c) 0 ds) := by
  unfold parseDigits
  have hcond : (List.replicate k '0' ++ ds) ≠ []
      ∧ (List.replicate k '0' ++ ds).all (fun c => c.isDigit) = true := by
    constructor
    · intro hx
      exact hne (List.append_eq_nil.mp hx).2
    · simp only [List.all_append, Bool.and_eq_true, List.all_eq_true]
      refine ⟨fun c hc => ?_, fun c hc => hdig c hc⟩
      rw [List.eq_of_mem_replicate hc]
      decide
  rw [if_pos hcond, List.foldl_append, foldl_zeros]

theorem pyInt_digits (s : Str) (hne : s ≠ [])
    (hdig : ∀ c ∈ s, c.isDigit = true) (m : Nat)
    (hp : parseDigits s = some m) :
    pyInt s = some (m : Int) := by
  cases s with
  | nil => exact absurd rfl hne
  | cons c cs =>
    have hcdig : c.isDigit = true := hdig c (List.mem_cons_self _ _)
    have hc₁ : c ≠ '-' := by
      intro hx; subst hx; exact absurd hcdig (by decide)
    have hc₂ : c ≠ '+' := by
      intro hx; subst hx; exact absurd hcdig (by decide)
    simp only [pyInt]
    rw [if_neg hc₁, if_neg hc₂, hp]
    rfl

/-- `f'{n:04}'` then `int(...)` round-trips. -/
theorem pyInt_formatPy04 (n : Int) : pyInt (formatPy04 n) = some n := by
  unfold formatPy04
  by_cases hn : n < 0
  · rw [if_pos hn]
    obtain ⟨ds, hds, hne, hdig, hfold⟩ := natDigits_facts n.natAbs
    rw [hds]
    simp only [pyInt]
    rw [if_pos trivial]
    unfold leftPad
    rw [parseDigits_pad _ ds hne (fun c hc => (hdig c hc).1), hfold]
    have hval : -((n.natAbs : Nat) : Int) = n := by omega
    show some (-((n.natAbs : Nat) : Int)) = some n
    rw [hval]
  · rw [if_neg hn]
    obtain ⟨ds, hds, hne, hdig, hfold⟩ := natDigits_facts n.toNat
    rw [hds]
    unfold leftPad
    have hne₂ : List.replicate (4 - ds.length) '0' ++ ds ≠ [] := by
      intro hx
      exact hne (List.append_eq_nil.mp hx).2
    have hdig₂ : ∀ c ∈ List.replicate (4 - ds.length) '0' ++ ds,
        c.isDigit = true := by
      intro c hc
      rcases List.mem_append.mp hc with h | h
      · rw [List.eq_of_mem_replicate h]; decide
      · exact (hdig c h).1
    have hp : parseDigits (List.replicate (4 - ds.length) '0' ++ ds)
        = some n.toNat := by
      rw [parseDigits_pad _ ds hne (fun c hc => (hdig c hc).1), hfold]
    rw [pyInt_digits _ hne₂ hdig₂ n.toNat hp]
    have hval : ((n.toNat : Nat) : Int) = n := by omega
    rw [hval]

theorem formatPy04_noDot (n : Int) : '.' ∉ formatPy04 n := by
  unfold formatPy04
  by_cases hn : n < 0
  · rw [if_pos hn]
    obtain ⟨ds, hds, _, hdig, _⟩ := natDigits_facts n.natAbs
    rw [hds]
    intro hx
    rcases List.mem_cons.mp hx with h | h
    · exact absurd h (by decide)
    · unfold leftPad at h
      rcases List.mem_append.mp h with h₁ | h₁
      · exact absurd (List.eq_of_mem_replicate h₁) (by decide)
      · exact (hdig '.' h₁).2 rfl
  · rw [if_neg hn]
    obtain ⟨ds, hds, _, hdig, _⟩ := natDigits_facts n.toNat
    rw [hds]
    unfold leftPad
    intro hx
    rcases List.mem_append.mp hx with h₁ | h₁
    · exact absurd (List.eq_of_mem_replicate h₁) (by decide)
    · exact (hdig '.' h₁).2 rfl

end Utils

namespace Utils

/-- Claim C6: on a path whose dot-split has at least three segments and whose
second-to-last segment parses as an integer `v`,
`increment_version_path path delta` replaces exactly that segment by
`v + delta` formatted as a zero-padded integer of at least four digits
(Python `f'{version:04}'`), keeping every other segment unchanged and in
order; consequently `get_version` of the result is `v + delta`. -/
theorem C6_increment_version (path : Str) (delta : Int) (v : Int)
    (hlen : 3 ≤ (splitDot path).length)
    (hv : pyInt ((splitDot path).getD ((splitDot path).length - 2) [])
      = some v) :
    increment_version_path path delta
      = some (joinDot ((splitDot path).take ((splitDot path).length - 2)
          ++ [formatPy04 (v + delta)]
          ++ (splitDot path).drop ((splitDot path).length - 1)))
    ∧ get_version (joinDot ((splitDot path).take ((splitDot path).length - 2)
          ++ [formatPy04 (v + delta)]
          ++ (splitDot path).drop ((splitDot path).length - 1)))
        = some (v + delta) := by
  set ss := splitDot path with hss
  have hlt : (ss.take (ss.length - 2)).length = ss.length - 2 := by
    rw [List.length_take]; omega
  have hld : (ss.drop (ss.length - 1)).length = 1 := by
    rw [List.length_drop]; omega
  constructor
  · unfold increment_version_path
    rw [← hss]
    simp only [if_neg (show ¬ (ss.length ≤ 1) by omega),
      if_pos (show 2 < ss.length by omega), hv]
    rw [show (List.take (ss.length - 2) ss
          ++ List.drop (ss.length - 1) ss).length - 1
        = (List.take (ss.length - 2) ss).length from by
      rw [List.length_append, hlt, hld]; omega]
    rw [List.take_left, List.drop_left]
  · have hYlen : ((ss.take (ss.length - 2) ++ [formatPy04 (v + delta)])
        ++ ss.drop (ss.length - 1)).length = ss.length := by
      rw [List.length_append, List.length_append, hlt, hld]
      simp only [List.length_singleton]
      omega
    have hYne : (ss.take (ss.length - 2) ++ [formatPy04 (v + delta)])
        ++ ss.drop (ss.length - 1) ≠ [] := by
      intro hx
      simp only [List.append_eq_nil] at hx
      exact List.cons_ne_nil _ _ hx.1.2
    have hYnodot : ∀ s ∈ (ss.take (ss.length - 2) ++ [formatPy04 (v + delta)])
        ++ ss.drop (ss.length - 1), '.' ∉ s := by
      intro s hs
      rcases List.mem_append.mp hs with h | h
      · rcases List.mem_append.mp h with h₁ | h₁
        · exact splitDot_parts_noDot path s (hss ▸ List.take_subset _ _ h₁)
        · rw [List.mem_singleton] at h₁
          subst h₁
          exact formatPy04_noDot _
      · exact splitDot_parts_noDot path s (hss ▸ List.drop_subset _ _ h)
    have hgetd : ((ss.take (ss.length - 2) ++ [formatPy04 (v + delta)])
        ++ ss.drop (ss.length - 1)).getD (ss.length - 2) []
        = formatPy04 (v + delta) := by
      rw [List.append_assoc]
      rw [List.getD_append_right (ss.take (ss.length - 2)) _ []
        (ss.length - 2) (by rw [hlt])]
      rw [show ss.length - 2 - (ss.take (ss.length - 2)).length = 0 from by
        rw [hlt]; omega]
      rw [List.singleton_append]
      rfl
    unfold get_version
    rw [splitDot_joinDot _ hYne hYnodot]
    simp only [hYlen, if_neg (show ¬ (ss.length ≤ 1) by omega),
      if_pos (show 2 < ss.length by omega), hgetd, pyInt_formatPy04]

/-- Witness for C6: bumping `scene.0005.mb` by one yields `scene.0006.mb`
and `get_version` reads 6 back. -/
theorem C6_increment_version_witness :
    increment_version_path "scene.0005.mb".toList 1
      = some (joinDot ((splitDot "scene.0005.mb".toList).take
            ((splitDot "scene.0005.mb".toList).length - 2)
          ++ [formatPy04 (5 + 1)]
          ++ (splitDot "scene.0005.mb".toList).drop
            ((splitDot "scene.0005.mb".toList).length - 1)))
    ∧ get_version (joinDot ((splitDot "scene.0005.mb".toList).take
            ((splitDot "scene.0005.mb".toList).length - 2)
          ++ [formatPy04 (5 + 1)]
          ++ (splitDot "scene.0005.mb".toList).drop
            ((splitDot "scene.0005.mb".toList).length - 1)))
        = some (5 + 1) :=
  C6_increment_version "scene.0005.mb".toList 1 5 (by decide) (by decide)

end Utils

namespace MayaSrc

/-- Counterexample to C8's unreachability consequence: passing an *empty
string* (not `None`) as `path_maya_file` skips both the isfile check (empty
is falsy) and the `None` dereference, and reaches the branch that launches
mayabatch without a maya file argument. -/
theorem C8_counterexample :
    MayabatchExecuter.run (fun _ => true) (some []) (some ['x']) none
      = .ok .launchedWithoutFile := rfl

/-- Claim C8, amended: with `path_maya_file = None` (its default), every
`MayabatchExecuter.run` call raises `AttributeError` at the
`path_maya_file.replace` dereference before any subprocess is started, so no
launch happens on the default path; the launch-without-file branch remains
reachable only by explicitly passing a falsy non-`None` string such as `''`. -/
theorem C8_none_raises (isfile : Str → Bool) (command : Option Str)
    (func : Option (Str × Str)) :
    MayabatchExecuter.run isfile none command func
      = .error .attributeError := by
  simp [MayabatchExecuter.run, truthyOptStr]

end MayaSrc

namespace MayaSrc

theorem pySplitNE_nil (a : Char) (r : Str) : pySplitNE a r [] = ([], []) := by
  simp [pySplitNE]

theorem pySplitNE_pos {a : Char} {r : Str} {c : Char} {cs : Str}
    (h : (a :: r).isPrefixOf (c :: cs) = true) :
    pySplitNE a r (c :: cs)
      = ([], (pySplitNE a r (cs.drop r.length)).1
          :: (pySplitNE a r (cs.drop r.length)).2) := by
  rw [pySplitNE]
  simp [h]

theorem pySplitNE_neg {a : Char} {r : Str} {c : Char} {cs : Str}
    (h : (a :: r).isPrefixOf (c :: cs) = false) :
    pySplitNE a r (c :: cs)
      = (c :: (pySplitNE a r cs).1, (pySplitNE a r cs).2) := by
  rw [pySplitNE]
  simp [h]

/-- The first split part is a prefix of the input. -/
theorem pySplitNE_fst_prefix (a : Char) (r : Str) :
    ∀ s, (pySplitNE a r s).1 <+: s := by
  intro s
  induction s with
  | nil => rw [pySplitNE_nil]
  | cons c cs ih =>
    cases hp : (a :: r).isPrefixOf (c :: cs) with
    | true => rw [pySplitNE_pos hp]; exact List.nil_prefix
    | false =>
      rw [pySplitNE_neg hp]
      obtain ⟨t, ht⟩ := ih
      exact ⟨t, by rw [List.cons_append, ht]⟩

/-- Characters of every split part come from the input. -/
theorem pySplitNE_mem (a : Char) (r : Str) :
    ∀ n (s : Str), s.length ≤ n →
      (∀ c ∈ (pySplitNE a r s).1, c ∈ s)
      ∧ (∀ q ∈ (pySplitNE a r s).2, ∀ c ∈ q, c ∈ s) := by
  intro n
  induction n with
  | zero =>
    intro s hs
    have hnil : s = [] := List.eq_nil_of_length_eq_zero (by omega)
    subst hnil
    rw [pySplitNE_nil]
    exact ⟨fun c hc => absurd hc (List.not_mem_nil c),
      fun q hq => absurd hq (List.not_mem_nil q)⟩
  | succ n ih =>
    intro s hs
    cases s with
    | nil =>
      rw [pySplitNE_nil]
      exact ⟨fun c hc => absurd hc (List.not_mem_nil c),
        fun q hq => absurd hq (List.not_mem_nil q)⟩
    | cons c cs =>
      cases hp : (a :: r).isPrefixOf (c :: cs) with
      | true =>
        rw [pySplitNE_pos hp]
        have hlen : (cs.drop r.length).length ≤ n := by
          rw [List.length_drop]
          simp only [List.length_cons] at hs
          omega
        obtain ⟨ih₁, ih₂⟩ := ih (cs.drop r.length) hlen
        refine ⟨fun x hx => absurd hx (List.not_mem_nil x), ?_⟩
        intro q hq x hx
        have hxcs : x ∈ cs.drop r.length → x ∈ c :: cs := fun hm =>
          List.mem_cons_of_mem c (List.drop_subset _ cs hm)
        rcases List.mem_cons.mp hq with rfl | hq
        · exact hxcs (ih₁ x hx)
        · exact hxcs (ih₂ q hq x hx)
      | false =>
        rw [pySplitNE_neg hp]
        have hlen : cs.length ≤ n := by
          simp only [List.length_cons] at hs
          omega
        obtain ⟨ih₁, ih₂⟩ := ih cs hlen
        refine ⟨?_, ?_⟩
        · intro x hx
          rcases List.mem_cons.mp hx with rfl | hx
          · exact List.mem_cons_self _ _
          · exact List.mem_cons_of_mem c (ih₁ x hx)
        · intro q hq x hx
          exact List.mem_cons_of_mem c (ih₂ q hq x hx)

/-- No split part contains the separator as a contiguous substring. -/
theorem pySplitNE_parts_noInfix (a : Char) (r : Str) :
    ∀ n (s : Str), s.length ≤ n →
      ¬ (a :: r) <:+: (pySplitNE a r s).1
      ∧ ∀ p ∈ (pySplitNE a r s).2, ¬ (a :: r) <:+: p := by
  intro n
  induction n with
  | zero =>
    intro s hs
    have hnil : s = [] := List.eq_nil_of_length_eq_zero (by omega)
    subst hnil
    rw [pySplitNE_nil]
    refine ⟨?_, fun p hp => absurd hp (List.not_mem_nil p)⟩
    intro hx
    rw [List.infix_nil] at hx
    exact List.cons_ne_nil _ _ hx
  | succ n ih =>
    intro s hs
    cases s with
    | nil =>
      rw [pySplitNE_nil]
      refine ⟨?_, fun p hp => absurd hp (List.not_mem_nil p)⟩
      intro hx
      rw [List.infix_nil] at hx
      exact List.cons_ne_nil _ _ hx
    | cons c cs =>
      cases hp : (a :: r).isPrefixOf (c :: cs) with
      | true =>
        rw [pySplitNE_pos hp]
        have hlen : (cs.drop r.length).length ≤ n := by
          rw [List.length_drop]
          simp only [List.length_cons] at hs
          omega
        obtain ⟨ih₁, ih₂⟩ := ih (cs.drop r.length) hlen
        refine ⟨?_, ?_⟩
        · intro hx
          rw [List.infix_nil] at hx
          exact List.cons_ne_nil _ _ hx
        · intro p hpm
          rcases List.mem_cons.mp hpm with rfl | hpm
          · exact ih₁
          · exact ih₂ p hpm
      | false =>
        rw [pySplitNE_neg hp]
        have hlen : cs.length ≤ n := by
          simp only [List.length_cons] at hs
          omega
        obtain ⟨ih₁, ih₂⟩ := ih cs hlen
        refine ⟨?_, ih₂⟩
        intro hx
        rcases List.infix_cons_iff.mp hx with hpre | hinf
        · have hfst := pySplitNE_fst_prefix a r cs
          have hglue : (a :: r) <+: c :: cs := by
            rcases List.cons_prefix_cons.mp hpre with ⟨ha, hrest⟩
            exact List.cons_prefix_cons.mpr ⟨ha, hrest.trans hfst⟩
          rw [← List.isPrefixOf_iff_prefix, hp] at hglue
          exact Bool.noConfusion hglue
        · exact ih₁ hinf

/-- A separator-free string does not split. -/
theorem pySplitNE_noInfix_eq (a : Char) (r : Str) :
    ∀ s, ¬ (a :: r) <:+: s → pySplitNE a r s = (s, []) := by
  intro s
  induction s with
  | nil => intro _; exact pySplitNE_nil a r
  | cons c cs ih =>
    intro h
    have hp : (a :: r).isPrefixOf (c :: cs) = false := by
      cases hb : (a :: r).isPrefixOf (c :: cs) with
      | false => rfl
      | true =>
        exact absurd (List.isPrefixOf_iff_prefix.mp hb).isInfix h
    rw [pySplitNE_neg hp,
      ih (fun hx => h (hx.trans (List.suffix_cons c cs).isInfix))]

/-- Splitting `w ++ '|' ++ u` on `'|'` with `w` bar-free: the first part is
exactly `w`. -/
theorem pySplitNE_bar_boundary :
    ∀ w u : Str, '|' ∉ w →
      pySplitNE '|' [] (w ++ '|' :: u)
        = (w, (pySplitNE '|' [] u).1 :: (pySplitNE '|' [] u).2) := by
  intro w
  induction w with
  | nil =>
    intro u _
    rw [List.nil_append]
    have hp : (['|'] : Str).isPrefixOf ('|' :: u) = true :=
      List.isPrefixOf_iff_prefix.mpr ⟨u, rfl⟩
    rw [pySplitNE_pos hp]
    simp
  | cons c w₁ ih =>
    intro u h
    have hc : c ≠ '|' := by
      intro hx; subst hx; exact h (List.mem_cons_self _ _)
    have hw₁ : '|' ∉ w₁ := fun hx => h (List.mem_cons_of_mem _ hx)
    rw [List.cons_append]
    have hp : (['|'] : Str).isPrefixOf (c :: (w₁ ++ '|' :: u)) = false := by
      cases hb : (['|'] : Str).isPrefixOf (c :: (w₁ ++ '|' :: u)) with
      | false => rfl
      | true =>
        obtain ⟨heq, _⟩ :=
          List.cons_prefix_cons.mp (List.isPrefixOf_iff_prefix.mp hb)
        exact absurd heq.symm hc
    rw [pySplitNE_neg hp, ih u hw₁]

/-- Splitting `w ++ ".f" ++ u` on `".f"` with `w` free of `".f"`: the first
part is exactly `w` (`'.'` differs from `'f'`, so no occurrence straddles the
boundary). -/
theorem pySplitNE_dotf_boundary :
    ∀ w u : Str, ¬ (['.', 'f'] : Str) <:+: w →
      pySplitNE '.' ['f'] (w ++ '.' :: 'f' :: u)
        = (w, (pySplitNE '.' ['f'] u).1 :: (pySplitNE '.' ['f'] u).2) := by
  intro w
  induction w with
  | nil =>
    intro u _
    rw [List.nil_append]
    have hp : (['.', 'f'] : Str).isPrefixOf ('.' :: 'f' :: u) = true :=
      List.isPrefixOf_iff_prefix.mpr ⟨u, rfl⟩
    rw [pySplitNE_pos hp]
    simp
  | cons d w₁ ih =>
    intro u hw
    have hw₁ : ¬ (['.', 'f'] : Str) <:+: w₁ := fun hx =>
      hw (hx.trans (List.suffix_cons d w₁).isInfix)
    rw [List.cons_append]
    have hp : (['.', 'f'] : Str).isPrefixOf (d :: (w₁ ++ '.' :: 'f' :: u))
        = false := by
      cases hb : (['.', 'f'] : Str).isPrefixOf (d :: (w₁ ++ '.' :: 'f' :: u)) with
      | false => rfl
      | true =>
        exfalso
        obtain ⟨hd, hrest⟩ :=
          List.cons_prefix_cons.mp (List.isPrefixOf_iff_prefix.mp hb)
        cases w₁ with
        | nil =>
          rw [List.nil_append] at hrest
          obtain ⟨hf, _⟩ := List.cons_prefix_cons.mp hrest
          exact absurd hf (by decide)
        | cons d₂ w₂ =>
          rw [List.cons_append] at hrest
          obtain ⟨hf, _⟩ := List.cons_prefix_cons.mp hrest
          apply hw
          refine List.IsPrefix.isInfix ⟨w₂, ?_⟩
          rw [← hd, ← hf]
          rfl
    rw [pySplitNE_neg hp, ih u hw₁]

theorem afterLastColon_noColon (s : Str) : ':' ∉ afterLastColon s := by
  unfold afterLastColon
  intro hx
  rw [List.mem_reverse] at hx
  have := List.mem_takeWhile_imp hx
  simp at this

theorem afterLastColon_of_noColon (s : Str) (h : ':' ∉ s) :
    afterLastColon s = s := by
  unfold afterLastColon
  have : s.reverse.takeWhile (fun c => c ≠ ':') = s.reverse := by
    rw [List.takeWhile_eq_self_iff]
    intro x hx
    rw [List.mem_reverse] at hx
    simp only [decide_eq_true_eq]
    intro hcol
    subst hcol
    exact h hx
  rw [this, List.reverse_reverse]

theorem afterLastColon_suffix (s : Str) : afterLastColon s <:+ s := by
  unfold afterLastColon
  have h : s.reverse.takeWhile (fun c => c ≠ ':') <+: s.reverse :=
    List.takeWhile_prefix _
  rw [show s.reverse.takeWhile (fun c => c ≠ ':')
      = (s.reverse.takeWhile (fun c => c ≠ ':')).reverse.reverse from
    (List.reverse_reverse _).symm] at h
  exact List.reverse_prefix.mp h

/-- `_remove_namespace` is idempotent on every single component. -/
theorem remove_namespace_idem (p : Str) :
    _remove_namespace (_remove_namespace p) = _remove_namespace p := by
  rcases hsp : pySplitNE '.' ['f'] p with ⟨h, t⟩
  have hpart1 : ¬ (['.', 'f'] : Str) <:+: h := by
    have hx := (pySplitNE_parts_noInfix '.' ['f'] p.length p (Nat.le_refl _)).1
    rw [hsp] at hx
    exact hx
  have hparts2 : ∀ q ∈ t, ¬ (['.', 'f'] : Str) <:+: q := by
    have hx := (pySplitNE_parts_noInfix '.' ['f'] p.length p (Nat.le_refl _)).2
    rw [hsp] at hx
    exact hx
  have hwsuf : afterLastColon h <:+ h := afterLastColon_suffix h
  have hwnoinf : ¬ (['.', 'f'] : Str) <:+: afterLastColon h := fun hx =>
    hpart1 (hx.trans hwsuf.isInfix)
  have hww : afterLastColon (afterLastColon h) = afterLastColon h :=
    afterLastColon_of_noColon _ (afterLastColon_noColon h)
  have h1 : _remove_namespace p
      = if 1 < (h :: t).length then
          afterLastColon h ++ '.' :: 'f' :: (h :: t).getD 1 []
        else afterLastColon h := by
    unfold _remove_namespace pySplit
    rw [hsp]
    rfl
  cases t with
  | nil =>
    rw [h1]
    rw [if_neg (by simp)]
    unfold _remove_namespace pySplit
    rw [pySplitNE_noInfix_eq '.' ['f'] _ hwnoinf]
    simp [hww]
  | cons t₀ t₁ =>
    rw [h1]
    rw [if_pos (by simp)]
    have ht₀ : ¬ (['.', 'f'] : Str) <:+: t₀ :=
      hparts2 t₀ (List.mem_cons_self _ _)
    have hgd : (h :: t₀ :: t₁).getD 1 [] = t₀ := rfl
    rw [hgd]
    unfold _remove_namespace pySplit
    rw [pySplitNE_dotf_boundary _ t₀ hwnoinf,
      pySplitNE_noInfix_eq '.' ['f'] t₀ ht₀]
    simp [hww]

/-- Every character `_remove_namespace` outputs comes from its input or is
one of the two reattached separator characters. -/
theorem remove_namespace_chars (q : Str) :
    ∀ c ∈ _remove_namespace q, c ∈ q ∨ c = '.' ∨ c = 'f' := by
  intro c hc
  rcases hsp : pySplitNE '.' ['f'] q with ⟨h, t⟩
  have hmem := pySplitNE_mem '.' ['f'] q.length q (Nat.le_refl _)
  rw [hsp] at hmem
  obtain ⟨hm₁, hm₂⟩ := hmem
  have hsub : ∀ x ∈ afterLastColon h, x ∈ q := fun x hx =>
    hm₁ x ((afterLastColon_suffix h).subset hx)
  unfold _remove_namespace pySplit at hc
  rw [hsp] at hc
  by_cases hl : 1 < (h :: t).length
  · rw [if_pos hl] at hc
    simp only [List.headD_cons] at hc
    rcases List.mem_append.mp hc with hx | hx
    · exact Or.inl (hsub c hx)
    · rcases List.mem_cons.mp hx with rfl | hx
      · exact Or.inr (Or.inl rfl)
      · rcases List.mem_cons.mp hx with rfl | hx
        · exact Or.inr (Or.inr rfl)
        · cases t with
          | nil => simp at hl
          | cons t₀ t₁ =>
            have hgd : (h :: t₀ :: t₁).getD 1 [] = t₀ := rfl
            rw [hgd] at hx
            exact Or.inl (hm₂ t₀ (List.mem_cons_self _ _) c hx)
  · rw [if_neg hl] at hc
    simp only [List.headD_cons] at hc
    exact Or.inl (hsub c hc)

/-- Splitting a bar-join on bars recovers the parts, when each part is
bar-free. -/
theorem pySplit_bar_joinWith : ∀ ps : List Str, ps ≠ [] →
    (∀ q ∈ ps, '|' ∉ q) →
    pySplit '|' [] (joinWith '|' ps) = ps := by
  intro ps
  induction ps with
  | nil => intro hne _; exact absurd rfl hne
  | cons q rest ih =>
    intro _ hall
    have hq : ¬ (['|'] : Str) <:+: q := by
      intro hx
      obtain ⟨s₁, t₁, hst⟩ := hx
      apply hall q (List.mem_cons_self _ _)
      rw [← hst]
      simp
    cases rest with
    | nil =>
      show pySplit '|' [] q = [q]
      unfold pySplit
      rw [pySplitNE_noInfix_eq '|' [] q hq]
    | cons q₂ rest₁ =>
      rw [show joinWith '|' (q :: q₂ :: rest₁)
          = q ++ '|' :: joinWith '|' (q₂ :: rest₁) from rfl]
      unfold pySplit
      rw [pySplitNE_bar_boundary q _ (hall q (List.mem_cons_self _ _))]
      have hih := ih (by simp) (fun x hx => hall x (List.mem_cons_of_mem _ hx))
      unfold pySplit at hih
      exact congrArg (fun l => q :: l) hih

/-- Claim C10: `remove_namespaces` is idempotent. -/
theorem C10_remove_namespaces_idem (fullname : Str) :
    remove_namespaces (remove_namespaces fullname)
      = remove_namespaces fullname := by
  unfold remove_namespaces
  have hne : (pySplit '|' [] fullname).map _remove_namespace ≠ [] := by
    unfold pySplit
    simp
  have hnb : ∀ q ∈ (pySplit '|' [] fullname).map _remove_namespace,
      '|' ∉ q := by
    intro q hq
    rw [List.mem_map] at hq
    obtain ⟨x, hx, rfl⟩ := hq
    intro hbar
    rcases remove_namespace_chars x '|' hbar with h | h | h
    · -- the components of the outer bar-split are bar-free
      have hinf : (['|'] : Str) <:+: x := by
        obtain ⟨s₁, t₁, hst⟩ := List.append_of_mem h
        exact ⟨s₁, t₁, by rw [hst]; simp⟩
      have hpx := pySplitNE_parts_noInfix '|' [] fullname.length fullname
        (Nat.le_refl _)
      unfold pySplit at hx
      rcases List.mem_cons.mp hx with rfl | hx
      · exact hpx.1 hinf
      · exact hpx.2 x hx hinf
    · exact absurd h (by decide)
    · exact absurd h (by decide)
  rw [pySplit_bar_joinWith _ hne hnb, List.map_map]
  exact congrArg (joinWith '|')
    (List.map_congr_left (fun a _ => remove_namespace_idem a))

end MayaSrc
